import Mathlib

/-!
Verification of the debcargo-vendor feature-resolution and changelog engines.

The Rust code keeps the feature graph of one crate in a
`BTreeMap<&str, (Vec<&str>, Vec<Dependency>)>` (`CrateDepInfo`): each feature
name maps to the list of features it requires and the list of external
dependencies it requires.  We embed a `BTreeMap` as an association list whose
keys are strictly sorted (its canonical iteration order); external
dependencies are opaque tokens, embedded as strings.
-/

namespace Debcargo

/-- Value of one feature: `(features_required, external_deps)`,
the two components of the `CrateDepInfo` map entries. -/
abbrev FeatureDeps := List String × List String

/-- Embedding of `CrateDepInfo`: a `BTreeMap` rendered as its sorted
association list. -/
abbrev FeatureGraph := List (String × FeatureDeps)

/-- Key set of the map, in iteration order. -/
def graphKeys (g : FeatureGraph) : List String := g.map Prod.fst

/-- `BTreeMap::get`: the value stored for key `f`. -/
def lookupFD (g : FeatureGraph) (f : String) : Option FeatureDeps :=
  (g.find? (fun q => q.1 == f)).map Prod.snd

/-- First key (in iteration order) whose stored value equals `d`.  In
`reduce_provides`, the first member pushed into a `features_rev_deps`
group is exactly this key. -/
def firstWithValue (g : FeatureGraph) (d : FeatureDeps) : Option String :=
  (g.find? (fun q => q.2 == d)).map Prod.fst

/-- Value rewriting of the signature-dedup stage for key `f` holding
value `d`: every `features_rev_deps` group member except the first is
rewritten into a pure pass-through `([f0], [])` of the first member
`f0`; first members (and the unreachable case of a value with no first
key) keep their value. -/
def dedupValue (g : FeatureGraph) (f : String) (d : FeatureDeps) : FeatureDeps :=
  match firstWithValue g d with
  | some f0 => if f0 = f then d else ([f0], [])
  | none => d

/-- The signature-dedup stage of `reduce_provides` (mod.rs 1023-1035): the
code groups features by identical value and rewrites every group member
except the first into a pure pass-through of the first member. -/
def dedupSignatures (g : FeatureGraph) : FeatureGraph :=
  g.map (fun q => (q.1, dedupValue g q.1 q.2))

/-- The `assert!(!ff.is_empty() || f.is_empty())` inside the provides
extraction loop (mod.rs 1045), checked for every entry whose external
deps are empty (entries with external deps are skipped before the
assert).  `false` means the Rust code panics. -/
def assertsOk (g : FeatureGraph) : Bool :=
  g.all (fun q => !q.2.2.isEmpty || !q.2.1.isEmpty || q.1 == "")

/-- Strict byte-lexicographic order on character lists, as `str` ordering
in Rust (`sort_unstable` on `Vec<&str>`). -/
def charsLt : List Char → List Char → Bool
  | [], [] => false
  | [], _ :: _ => true
  | _ :: _, [] => false
  | a :: as, b :: bs => a < b || (a == b && charsLt as bs)

/-- Non-strict string order used for sorting provides lists. -/
def strLe (a b : String) : Bool := !charsLt b.data a.data

/-- An entry `f → ([k], [])` is declared "provided by `k`"
(mod.rs 1040-1058). -/
def isPassthrough (q : String × FeatureDeps) : Bool :=
  q.2.2.isEmpty && q.2.1.length == 1

/-- The `provided` vector of `reduce_provides`: all features declared
provided, in iteration order. -/
def providedList (g : FeatureGraph) : List String :=
  (g.filter isPassthrough).map Prod.fst

/-- The direct provides map built by the extraction loop: `provides[k]` is
the list of features `f` whose entry is exactly `([k], [])`, in iteration
order. -/
def directProvides (g : FeatureGraph) (k : String) : List String :=
  (g.filter (fun q => q.2.2.isEmpty && q.2.1 == [k])).map Prod.fst

/-- Modelled from the spec: `util::traverse_depth` is not under `src/`
(only its caller `reduce_provides` is).  Per spec 4.2 step 3 it computes,
for a key, "the full, recursively-expanded set of features it provides (if
`k` provides `f` and `f` itself turns out to provide `g` before removal,
`k`'s provides-list must include both)".  The recursion is bounded by a
fuel argument; callers pass a fuel no smaller than the longest possible
provides chain. -/
def traverse_depth (m : String → List String) : Nat → String → List String
  | 0, _ => []
  | n + 1, k => m k ++ (m k).flatMap (traverse_depth m n)

/-- `reduce_provides` (mod.rs 1016-1076).  Stages: signature dedup,
provides extraction (with the panicking assert modelled as `none`),
removal of provided features, and the transitive, sorted provides map
computed for each surviving key.  Returns `(provides, reduced_graph)`. -/
def reduce_provides (g : FeatureGraph) :
    Option (List (String × List String) × FeatureGraph) :=
  let gd := dedupSignatures g
  if assertsOk gd then
    let provided := providedList gd
    let reduced := gd.filter (fun q => !provided.contains q.1)
    let provides := reduced.map (fun q =>
      (q.1, List.insertionSort (fun a b => strLe a b = true)
              (traverse_depth (directProvides gd) gd.length q.1)))
    some (provides, reduced)
  else
    none

/-- `collapse_features` (mod.rs 984-1005): fold the whole graph into the
single base package `""`, collecting every non-base feature name into its
provides list and concatenating every feature's external deps. -/
def collapse_features (g : FeatureGraph) :
    List (String × List String) × FeatureGraph :=
  let provides := (g.filter (fun q => !(q.1 == ""))).map Prod.fst
  let deps := g.flatMap (fun q => q.2.2)
  ([("", provides)], [("", ([], deps))])

/-- The Recommends/Suggests classification loop of `prepare_debian_control`
(mod.rs 786-796): iterate over the provides map; skip the base feature;
a feature is recommended when it is `"default"` or its provides list
contains `"default"`, suggested otherwise.  Returns
`(recommends, suggests)`. -/
def classify_provides (pv : List (String × List String)) :
    List String × List String :=
  pv.foldl
    (fun acc q =>
      if q.1.isEmpty then acc
      else if q.1 = "default" ∨ "default" ∈ q.2 then (acc.1 ++ [q.1], acc.2)
      else (acc.1, acc.2 ++ [q.1]))
    ([], [])

/-- The package-emission loop's `provides.remove(feature).unwrap()`
(mod.rs 798-800): remove the entry of each reduced-graph key in turn from
the provides map; `none` models a panicking `unwrap` on a missing key.
The final map is what `assert!(provides.is_empty())` (mod.rs 944)
inspects. -/
def drain_provides (pv : List (String × List String)) (ks : List String) :
    Option (List (String × List String)) :=
  ks.foldl
    (fun acc k =>
      acc.bind (fun m =>
        match m.find? (fun q => q.1 == k) with
        | some _ => some (m.eraseP (fun q => q.1 == k))
        | none => none))
    (some pv)

/-- Worklist closure of the `features_required` edges, with a visited list
and explicit fuel. -/
def reach_features (g : FeatureGraph) : Nat → List String → List String → List String
  | 0, visited, _ => visited
  | _ + 1, visited, [] => visited
  | n + 1, visited, x :: todo =>
    if visited.contains x then reach_features g n visited todo
    else
      reach_features g n (visited ++ [x])
        (todo ++ (((lookupFD g x).map Prod.fst).getD []))

/-- Modelled from the spec: `crates::transitive_deps` is not under `src/`
(only its callers are).  Per spec 4.1 it returns the reflexive-transitive
closure of a feature — every feature reachable along `features_required`
edges, the feature itself included — together with the union of the
external deps of all reached features.  The worklist fuel is a safe upper
bound on the number of worklist steps. -/
def transitive_deps (g : FeatureGraph) (f : String) : List String × List String :=
  let edges := g.foldl (fun a q => a + q.2.1.length) 0
  let fuel := (g.length + edges + 2) * (g.length + edges + 2)
  let feats := reach_features g fuel [] [f]
  (feats, feats.flatMap (fun x => ((lookupFD g x).map Prod.snd).getD []))

/-- The per-feature test activation arguments of `prepare_debian_control`
(mod.rs 903-917): start from `--no-default-features` unless `"default"`
is the feature or is among its transitive feature deps, then append
`--features <f>` unless the feature is empty or exactly `"default"`. -/
def test_args (g : FeatureGraph) (f : String) : List String :=
  let feature_deps := (transitive_deps g f).1
  let args :=
    if f = "default" ∨ "default" ∈ feature_deps then ([] : List String)
    else ["--no-default-features"]
  if !f.isEmpty ∧ f ≠ "default" then args ++ ["--features", f] else args

/-- First conflict among a list of child evaluation results. -/
def firstError (rs : List (Except (String × List Bool) (Option Bool))) :
    Option (String × List Bool) :=
  rs.findSome? (fun r => match r with | .error e => some e | .ok _ => none)

/-- The successful values among a list of child evaluation results. -/
def okValues (rs : List (Except (String × List Bool) (Option Bool))) :
    List (Option Bool) :=
  rs.filterMap (fun r => match r with | .ok v => some v | .error _ => none)

/-- Modelled from the spec: `util::get_transitive_val` is not under `src/`
(only its caller, the `test_is_broken` closure of
`prepare_debian_control` at mod.rs 610-623, is).  Per spec 4.3 and design
note 9 it is a depth-first fold computing the effective value of a feature
from its own override and the effective values of every feature it
requires, short-circuiting to a conflict error carrying the offending
feature and the list of distinct disagreeing values.  The recursion is
bounded by explicit fuel; exhausted fuel yields no known value. -/
def get_transitive_val (parents : String → Option (List String))
    (getval : String → Option Bool) :
    Nat → String → Except (String × List Bool) (Option Bool)
  | 0, _ => .ok none
  | n + 1, f =>
    let rs := ((parents f).getD []).map
      (fun p => get_transitive_val parents getval n p)
    match firstError rs with
    | some e => .error e
    | none =>
      match (((getval f) :: okValues rs).filterMap id).dedup with
      | [] => .ok none
      | [v] => .ok (some v)
      | vs => .error (f, vs)

/-- Fuel-indexed reachability along the `parents` edges mirroring the
recursion of `get_transitive_val`: with fuel `n + 1`, a feature reaches
itself and anything its parents reach with fuel `n`. -/
def reachb (parents : String → Option (List String)) :
    Nat → String → String → Bool
  | 0, _, _ => false
  | n + 1, f, target =>
    f == target || ((parents f).getD []).any (fun p => reachb parents n p target)

/-- Modelled from the spec: `changelog::DEFAULT_DIST`, the sentinel
"unreleased" distribution marker (`debian/changelog.rs` is not under
`src/`). -/
def DEFAULT_DIST : String := "UNRELEASED"

/-- Modelled from the spec: `changelog::COMMENT_TEAM_UPLOAD`, the fixed
"team upload" marker line-item. -/
def COMMENT_TEAM_UPLOAD : String := "  * Team upload."

/-- Modelled from the spec: `changelog::ChangelogEntry` (not under
`src/`).  One history entry: source package name, target version string,
distribution label, urgency, author (name plus contact), timestamp and
the ordered line-items.  The timestamp is opaque to every claim and is
embedded as a number. -/
structure ChangelogEntry where
  source : String
  version : String
  distribution : String
  urgency : String
  maintainer : String
  date : Nat
  items : List String
deriving DecidableEq, Repr

/-- Split a character list at its last hyphen: `some (before, after)`
when a hyphen exists. -/
def suffixSplit : List Char → Option (List Char × List Char)
  | [] => none
  | c :: cs =>
    match suffixSplit cs with
    | some (up, suf) => some (c :: up, suf)
    | none => if c == '-' then some ([], cs) else none

/-- Modelled from the spec: `ChangelogEntry::version_parts` splits a
Debian version string into its upstream-version component and its
revision suffix at the last hyphen; a version with no hyphen has an empty
suffix. -/
def version_parts (v : String) : String × String :=
  match suffixSplit v.data with
  | some (up, suf) => (String.mk up, String.mk suf)
  | none => (v, "")

/-- Parse a non-empty all-digit character list as a decimal number. -/
def parseNat (l : List Char) : Option Nat :=
  if l.isEmpty then none
  else if l.all (fun c => c.isDigit) then
    some (l.foldl (fun a c => a * 10 + (c.toNat - 48)) 0)
  else none

/-- Modelled from the spec: `ChangelogEntry::deb_version_suffix_bump`
bumps the numeric revision suffix of a version by one. -/
def deb_version_suffix_bump (v : String) : String :=
  toString ((parseNat (version_parts v).2.data).getD 0 + 1)

/-- Modelled from the spec: `ChangelogEntry::maintainer_name`, the name
part of a `Name <email>` maintainer string. -/
def maintainer_name : List Char → List Char
  | [] => []
  | ' ' :: '<' :: _ => []
  | c :: cs => c :: maintainer_name cs

/-- Name part of a maintainer string, as a string. -/
def maintainerName (m : String) : String := String.mk (maintainer_name m.data)

/-- The `ver_bump` closure of `prepare_debian_folder` (mod.rs 463-475):
looking at an optional pre-existing entry, produce the bumped revision
suffix when its upstream-version component equals the freshly computed
Debian version, and nothing otherwise. -/
def ver_bump (debian_version : String) (e : Option ChangelogEntry) : Option String :=
  match e with
  | some x =>
    if (version_parts x.version).1 = debian_version then
      some (deb_version_suffix_bump x.version)
    else none
  | none => none

/-- The changelog reconciliation of `prepare_debian_folder`
(mod.rs 461-539), at the level of parsed entries (parsing and printing
live in `debian/changelog.rs`, which is not under `src/`; per the spec
the file is an ordered sequence of entries, newest first).  If the top
entry is unreleased it is rewritten in place: a same-author run replaces
the first autogenerated line-item (or appends one), a different-author
run inserts the new item, a blank separator and a `[ name ]` sub-heading
above the existing items.  Otherwise a fresh entry is prepended.  The
target version is `{debian_version}-{suffix}` where the suffix comes from
`ver_bump` applied to the next pre-existing entry (the second entry when
amending, the first when prepending) and falls back to `"1"`.  A missing
uploader gets the team-upload marker item inserted first. -/
def rewrite_changelog (debian_version source_name author : String)
    (uploaders : List String) (autogenerated_item : String)
    (isAutogenerated : String → Bool) (now : Nat)
    (entries : List ChangelogEntry) : List ChangelogEntry :=
  let branch : List ChangelogEntry × List String × Option String :=
    match entries with
    | e :: rest =>
      if e.distribution = DEFAULT_DIST then
        let items :=
          if author = e.maintainer then
            match e.items.findIdx? isAutogenerated with
            | some pos => e.items.set pos autogenerated_item
            | none => e.items ++ [autogenerated_item]
          else
            autogenerated_item :: "" ::
              ("  [ " ++ maintainerName e.maintainer ++ " ]") :: e.items
        (rest, items, ver_bump debian_version rest.head?)
      else
        (entries, [autogenerated_item], ver_bump debian_version entries.head?)
    | [] => (entries, [autogenerated_item], ver_bump debian_version none)
  let source_deb_version := debian_version ++ "-" ++ branch.2.2.getD "1"
  let items :=
    if !uploaders.contains author && !branch.2.1.contains COMMENT_TEAM_UPLOAD then
      COMMENT_TEAM_UPLOAD :: branch.2.1
    else branch.2.1
  { source := source_name, version := source_deb_version,
    distribution := DEFAULT_DIST, urgency := "urgency=medium",
    maintainer := author, date := now, items := items } :: branch.1

/-! ### Concrete inputs used by counterexamples and witnesses -/

/-- The feature graph used by the spec's worked example:
`{"": ([], ["libc"]), "default": (["std"], []), "std": ([], ["libc"])}`,
listed in `BTreeMap` iteration order. -/
def exampleGraph : FeatureGraph :=
  [("", ([], ["libc"])), ("default", (["std"], [])), ("std", ([], ["libc"]))]

/-- An unreleased changelog entry authored by Alice, used as the concrete
input of the authorship claims. -/
def entryAlice : ChangelogEntry :=
  { source := "rust-foo", version := "1.0.0-1", distribution := "UNRELEASED",
    urgency := "urgency=medium", maintainer := "Alice <alice@example.com>",
    date := 0, items := ["  * Initial release."] }

/-- The rerunning author of the authorship claims. -/
def bobAuthor : String := "Bob <bob@example.com>"

/-- A concrete autogenerated line-item. -/
def fooItem : String := "  * Package foo 1.0.0 from crates.io using debcargo 2.0.0"

/-- Concrete requirement map with a conflict: feature `a` requires `b`
and `c`. -/
def conflictParents : String → Option (List String) :=
  fun f => if f = "a" then some ["b", "c"] else none

/-- Concrete overrides marking `b` broken and `c` explicitly not
broken. -/
def conflictVals : String → Option Bool :=
  fun f => if f = "b" then some true else if f = "c" then some false else none

/-- Concrete requirement map without conflict: `x` requires `y`. -/
def okParents : String → Option (List String) :=
  fun f => if f = "x" then some ["y"] else none

/-- Concrete override marking `y` broken. -/
def okVals : String → Option Bool :=
  fun f => if f = "y" then some true else none

/-- Well-formedness of a feature graph: every required feature names a
key of the graph (spec 3: features map to other features of the same
graph). -/
def GraphClosed (g : FeatureGraph) : Prop :=
  ∀ q ∈ g, ∀ f ∈ q.2.1, f ∈ graphKeys g

/-- `rank` witnesses acyclicity: it strictly decreases along every
`features_required` edge. -/
def RankOk (g : FeatureGraph) (rank : String → Nat) : Prop :=
  ∀ q ∈ g, ∀ f ∈ q.2.1, rank f < rank q.1

/-- Acyclicity of the per-feature graph (spec 3): a topological rank
exists, equivalently the `features_required` relation has no cycle. -/
def Acyclic (g : FeatureGraph) : Prop := ∃ rank, RankOk g rank

/-- The provider of a pass-through entry: `parOf g f = some k` exactly
when `f`'s entry is `([k], [])`, i.e. the extraction loop declares `f`
provided by `k`. -/
def parOf (g : FeatureGraph) (f : String) : Option String :=
  match lookupFD g f with
  | some ([k], []) => some k
  | _ => none

/-- Iterated provider map: the chain `f`, `parOf f`, `parOf (parOf f)`,
... -/
def parIter (g : FeatureGraph) : Nat → String → Option String
  | 0, f => some f
  | n + 1, f => (parOf g f).bind (parIter g n)

/-- Minimum of `rank` over the keys of a signature class, seeded. -/
def classMin (g : FeatureGraph) (rank : String → Nat) (seed : Nat)
    (d : FeatureDeps) : Nat :=
  ((g.filter (fun q => q.2 == d)).map (fun q => rank q.1)).foldr Nat.min seed

/-- A rank collapsed along signature classes: keys with equal values get
equal ranks, and edges still strictly decrease it. -/
def rankTwo (g : FeatureGraph) (rank : String → Nat) (f : String) : Nat :=
  match lookupFD g f with
  | some d => classMin g rank (rank f) d
  | none => rank f

/-- Whether the signature dedup rewrites the entry of `f`. -/
def rewrittenB (g : FeatureGraph) (f : String) : Bool :=
  match lookupFD g f with
  | some d =>
    match firstWithValue g d with
    | some f0 => decide (f0 ≠ f)
    | none => false
  | none => false

/-- A rank that strictly decreases along every edge of the dedup'd
graph. -/
def rankD (g : FeatureGraph) (rank : String → Nat) (f : String) : Nat :=
  2 * rankTwo g rank f + (if rewrittenB g f then 1 else 0)

/-! ### Claims about `reduce_provides` and `collapse_features` -/

/-- C2 (counterexample): on the spec's example graph, the provides map
returned by `reduce_provides` is not `{"std": ["default"]}`: the base
feature `""` and `"std"` carry identical signatures `([], ["libc"])`, so
the signature dedup rewrites `"std"` into a pass-through of `""` and the
whole graph reduces to the single key `""`. -/
theorem claim_C2_counterexample :
    (reduce_provides exampleGraph).map Prod.fst ≠ some [("std", ["default"])] := by
  decide

/-- C2 (amended): on the spec's example graph, `reduce_provides` returns
the reduced graph with key set `{""}` and the provides map
`{"": ["default", "std"]}`. -/
theorem claim_C2_amended :
    reduce_provides exampleGraph =
      some ([("", ["default", "std"])], [("", ([], ["libc"]))]) := by
  decide

/-- C3: for every input feature graph, `collapse_features` returns exactly
one package keyed `""` with an empty required-features list, whose
external-dependency list holds exactly the external deps of the original
features, and a provides map sending `""` to exactly the non-base feature
names. -/
theorem claim_C3 (g : FeatureGraph) :
    (collapse_features g).2 = [("", ([], g.flatMap (fun q => q.2.2)))] ∧
    (collapse_features g).1 =
      [("", (g.filter (fun q => !(q.1 == ""))).map Prod.fst)] ∧
    (∀ x, x ∈ g.flatMap (fun q => q.2.2) ↔ ∃ q ∈ g, x ∈ q.2.2) ∧
    (∀ x, x ∈ (g.filter (fun q => !(q.1 == ""))).map Prod.fst ↔
      x ∈ graphKeys g ∧ x ≠ "") := by
  refine ⟨rfl, rfl, ?_, ?_⟩
  · intro x
    simp [List.mem_flatMap]
  · intro x
    simp only [List.mem_map, List.mem_filter, graphKeys, Bool.not_eq_eq_eq_not,
      Bool.not_true, beq_eq_false_iff_ne, ne_eq]
    constructor
    · rintro ⟨q, ⟨hq, hne⟩, rfl⟩
      exact ⟨⟨q, hq, rfl⟩, hne⟩
    · rintro ⟨⟨q, hq, rfl⟩, hne⟩
      exact ⟨q, ⟨hq, hne⟩, rfl⟩

/-- Membership in the two accumulators of the classification fold, with
the accumulator generalized. -/
theorem classify_provides_mem (l : List (String × List String)) :
    ∀ (acc : List String × List String) (f : String),
      (f ∈ (l.foldl
          (fun acc q =>
            if q.1.isEmpty then acc
            else if q.1 = "default" ∨ "default" ∈ q.2 then (acc.1 ++ [q.1], acc.2)
            else (acc.1, acc.2 ++ [q.1]))
          acc).1 ↔
        f ∈ acc.1 ∨ ∃ fs, (f, fs) ∈ l ∧ f ≠ "" ∧ (f = "default" ∨ "default" ∈ fs)) ∧
      (f ∈ (l.foldl
          (fun acc q =>
            if q.1.isEmpty then acc
            else if q.1 = "default" ∨ "default" ∈ q.2 then (acc.1 ++ [q.1], acc.2)
            else (acc.1, acc.2 ++ [q.1]))
          acc).2 ↔
        f ∈ acc.2 ∨ ∃ fs, (f, fs) ∈ l ∧ f ≠ "" ∧ ¬(f = "default" ∨ "default" ∈ fs)) := by
  induction l with
  | nil =>
    intro acc f
    simp
  | cons q t ih =>
    intro acc f
    obtain ⟨a, fs0⟩ := q
    have hpair : ∀ fs : List String,
        ((f, fs) ∈ (a, fs0) :: t) ↔ (f = a ∧ fs = fs0) ∨ (f, fs) ∈ t := by
      intro fs
      constructor
      · intro h
        rcases List.mem_cons.mp h with h | h
        · left
          exact ⟨congrArg Prod.fst h, congrArg Prod.snd h⟩
        · right; exact h
      · rintro (⟨rfl, rfl⟩ | h)
        · exact List.mem_cons_self _ _
        · exact List.mem_cons_of_mem _ h
    by_cases ha : a.isEmpty
    · have ha' : a = "" := (String.isEmpty_iff a).mp ha
      subst ha'
      constructor
      · rw [List.foldl_cons, if_pos ha, (ih acc f).1]
        constructor
        · rintro (h | ⟨fs, hmem, hf, hrec⟩)
          · exact Or.inl h
          · exact Or.inr ⟨fs, (hpair fs).mpr (Or.inr hmem), hf, hrec⟩
        · rintro (h | ⟨fs, hmem, hf, hrec⟩)
          · exact Or.inl h
          · rcases (hpair fs).mp hmem with ⟨he, _⟩ | hmem
            · exact absurd he hf
            · exact Or.inr ⟨fs, hmem, hf, hrec⟩
      · rw [List.foldl_cons, if_pos ha, (ih acc f).2]
        constructor
        · rintro (h | ⟨fs, hmem, hf, hrec⟩)
          · exact Or.inl h
          · exact Or.inr ⟨fs, (hpair fs).mpr (Or.inr hmem), hf, hrec⟩
        · rintro (h | ⟨fs, hmem, hf, hrec⟩)
          · exact Or.inl h
          · rcases (hpair fs).mp hmem with ⟨he, _⟩ | hmem
            · exact absurd he hf
            · exact Or.inr ⟨fs, hmem, hf, hrec⟩
    · have ha' : a ≠ "" := by
        intro he
        rw [he] at ha
        exact ha rfl
      by_cases hd : a = "default" ∨ "default" ∈ fs0
      · constructor
        · rw [List.foldl_cons, if_neg ha, if_pos hd, (ih _ f).1]
          simp only [List.mem_append, List.mem_singleton]
          constructor
          · rintro ((h | rfl) | ⟨fs, hmem, hf, hrec⟩)
            · exact Or.inl h
            · exact Or.inr ⟨fs0, (hpair fs0).mpr (Or.inl ⟨rfl, rfl⟩), ha', hd⟩
            · exact Or.inr ⟨fs, (hpair fs).mpr (Or.inr hmem), hf, hrec⟩
          · rintro (h | ⟨fs, hmem, hf, hrec⟩)
            · exact Or.inl (Or.inl h)
            · rcases (hpair fs).mp hmem with ⟨rfl, rfl⟩ | hmem
              · exact Or.inl (Or.inr rfl)
              · exact Or.inr ⟨fs, hmem, hf, hrec⟩
        · rw [List.foldl_cons, if_neg ha, if_pos hd, (ih _ f).2]
          constructor
          · rintro (h | ⟨fs, hmem, hf, hrec⟩)
            · exact Or.inl h
            · exact Or.inr ⟨fs, (hpair fs).mpr (Or.inr hmem), hf, hrec⟩
          · rintro (h | ⟨fs, hmem, hf, hrec⟩)
            · exact Or.inl h
            · rcases (hpair fs).mp hmem with ⟨rfl, rfl⟩ | hmem
              · exact absurd hd hrec
              · exact Or.inr ⟨fs, hmem, hf, hrec⟩
      · constructor
        · rw [List.foldl_cons, if_neg ha, if_neg hd, (ih _ f).1]
          constructor
          · rintro (h | ⟨fs, hmem, hf, hrec⟩)
            · exact Or.inl h
            · exact Or.inr ⟨fs, (hpair fs).mpr (Or.inr hmem), hf, hrec⟩
          · rintro (h | ⟨fs, hmem, hf, hrec⟩)
            · exact Or.inl h
            · rcases (hpair fs).mp hmem with ⟨rfl, rfl⟩ | hmem
              · exact absurd hrec hd
              · exact Or.inr ⟨fs, hmem, hf, hrec⟩
        · rw [List.foldl_cons, if_neg ha, if_neg hd, (ih _ f).2]
          simp only [List.mem_append, List.mem_singleton]
          constructor
          · rintro ((h | rfl) | ⟨fs, hmem, hf, hrec⟩)
            · exact Or.inl h
            · exact Or.inr ⟨fs0, (hpair fs0).mpr (Or.inl ⟨rfl, rfl⟩), ha', hd⟩
            · exact Or.inr ⟨fs, (hpair fs).mpr (Or.inr hmem), hf, hrec⟩
          · rintro (h | ⟨fs, hmem, hf, hrec⟩)
            · exact Or.inl (Or.inl h)
            · rcases (hpair fs).mp hmem with ⟨rfl, rfl⟩ | hmem
              · exact Or.inl (Or.inr rfl)
              · exact Or.inr ⟨fs, hmem, hf, hrec⟩

/-- C6: a non-base feature of the provides map lands in the recommends
list exactly when it is `"default"` or its provides list contains
`"default"`, in the suggests list otherwise, and the base feature `""`
lands in neither. -/
theorem claim_C6 (pv : List (String × List String)) (f : String) :
    (f ∈ (classify_provides pv).1 ↔
      ∃ fs, (f, fs) ∈ pv ∧ f ≠ "" ∧ (f = "default" ∨ "default" ∈ fs)) ∧
    (f ∈ (classify_provides pv).2 ↔
      ∃ fs, (f, fs) ∈ pv ∧ f ≠ "" ∧ ¬(f = "default" ∨ "default" ∈ fs)) ∧
    "" ∉ (classify_provides pv).1 ∧ "" ∉ (classify_provides pv).2 := by
  have h := classify_provides_mem pv ([], []) f
  have h0 := classify_provides_mem pv ([], []) ""
  unfold classify_provides
  refine ⟨?_, ?_, ?_, ?_⟩
  · rw [h.1]
    simp
  · rw [h.2]
    simp
  · rw [h0.1]
    rintro (h | ⟨fs, _, hf, _⟩)
    · simp at h
    · exact hf rfl
  · rw [h0.2]
    rintro (h | ⟨fs, _, hf, _⟩)
    · simp at h
    · exact hf rfl

/-- C8: the synthesized activation arguments omit `--no-default-features`
exactly when the feature is `"default"` or `"default"` is among its
transitive feature deps, and select the feature explicitly unless it is
empty or exactly `"default"`. -/
theorem claim_C8 (g : FeatureGraph) (f : String) :
    test_args g f =
      (if f = "default" ∨ "default" ∈ (transitive_deps g f).1 then []
       else ["--no-default-features"]) ++
      (if f = "" ∨ f = "default" then [] else ["--features", f]) := by
  have hemp : ((!f.isEmpty) = true) ↔ f ≠ "" := by
    rw [Bool.not_eq_true']
    rw [← Bool.not_eq_true]
    exact not_congr (String.isEmpty_iff f)
  unfold test_args
  dsimp only
  by_cases h1 : f = "default" ∨ "default" ∈ (transitive_deps g f).1
  · rw [if_pos h1]
    by_cases h2 : f = "" ∨ f = "default"
    · rw [if_pos h2]
      have : ¬((!f.isEmpty) = true ∧ f ≠ "default") := by
        rcases h2 with h | h
        · intro hc
          exact (hemp.mp hc.1) h
        · intro hc
          exact hc.2 h
      rw [if_neg this]
      rfl
    · rcases not_or.mp h2 with ⟨h2a, h2b⟩
      rw [if_neg h2]
      rw [if_pos ⟨hemp.mpr h2a, h2b⟩]
  · rw [if_neg h1]
    by_cases h2 : f = "" ∨ f = "default"
    · rw [if_pos h2]
      have : ¬((!f.isEmpty) = true ∧ f ≠ "default") := by
        rcases h2 with h | h
        · intro hc
          exact (hemp.mp hc.1) h
        · intro hc
          exact hc.2 h
      rw [if_neg this]
      rfl
    · rcases not_or.mp h2 with ⟨h2a, h2b⟩
      rw [if_neg h2]
      rw [if_pos ⟨hemp.mpr h2a, h2b⟩]

/-- Draining an association list along its own key list always succeeds
and empties it. -/
theorem drain_provides_self (pv : List (String × List String)) :
    drain_provides pv (pv.map Prod.fst) = some [] := by
  induction pv with
  | nil => rfl
  | cons q t ih =>
    unfold drain_provides at ih ⊢
    simp only [List.map_cons, List.foldl_cons]
    have hfind : (q :: t).find? (fun p => p.1 == q.1) = some q := by
      apply List.find?_cons_of_pos
      simp
    have herase : (q :: t).eraseP (fun p => p.1 == q.1) = t := by
      apply List.eraseP_cons_of_pos
      simp
    simp only [Option.bind, hfind, herase]
    exact ih

/-- C9: the provides map returned by `reduce_provides` (and by
`collapse_features`) has exactly the reduced graph's keys, so the
emission loop's `provides.remove(feature).unwrap()` never fails and the
map is empty when the loop finishes. -/
theorem claim_C9 :
    (∀ (g : FeatureGraph) (pv : List (String × List String)) (r : FeatureGraph),
      reduce_provides g = some (pv, r) →
        pv.map Prod.fst = graphKeys r ∧
        drain_provides pv (graphKeys r) = some []) ∧
    (∀ g : FeatureGraph,
      (collapse_features g).1.map Prod.fst = graphKeys (collapse_features g).2 ∧
      drain_provides (collapse_features g).1
        (graphKeys (collapse_features g).2) = some []) := by
  constructor
  · intro g pv r hr
    unfold reduce_provides at hr
    by_cases hok : assertsOk (dedupSignatures g)
    · rw [if_pos hok] at hr
      have h := Option.some.inj hr
      have h1 : ((dedupSignatures g).filter
          (fun q => !(providedList (dedupSignatures g)).contains q.1)).map
            (fun q => (q.1, List.insertionSort (fun a b => strLe a b = true)
              (traverse_depth (directProvides (dedupSignatures g))
                (dedupSignatures g).length q.1))) = pv := congrArg Prod.fst h
      have h2 : (dedupSignatures g).filter
          (fun q => !(providedList (dedupSignatures g)).contains q.1) = r :=
        congrArg Prod.snd h
      have hkeys : pv.map Prod.fst = graphKeys r := by
        rw [← h1, ← h2, graphKeys, List.map_map]
        rfl
      refine ⟨hkeys, ?_⟩
      rw [← hkeys]
      exact drain_provides_self pv
    · rw [if_neg hok] at hr
      exact Option.noConfusion hr
  · intro g
    refine ⟨rfl, ?_⟩
    have : graphKeys (collapse_features g).2 =
        (collapse_features g).1.map Prod.fst := rfl
    rw [this]
    exact drain_provides_self (collapse_features g).1

/-- C9 witness: on the spec's example graph both maps drain to empty. -/
theorem claim_C9_witness :
    ([("", ["default", "std"])].map Prod.fst =
        graphKeys [("", (([] : List String), ["libc"]))] ∧
      drain_provides [("", ["default", "std"])]
        (graphKeys [("", (([] : List String), ["libc"]))]) = some []) ∧
    ((collapse_features exampleGraph).1.map Prod.fst =
        graphKeys (collapse_features exampleGraph).2 ∧
      drain_provides (collapse_features exampleGraph).1
        (graphKeys (collapse_features exampleGraph).2) = some []) :=
  ⟨claim_C9.1 exampleGraph [("", ["default", "std"])]
      [("", (([] : List String), ["libc"]))] (by decide),
    claim_C9.2 exampleGraph⟩

/-! ### Claims about the changelog reconciliation -/


/-- C4 (counterexample): rerunning Bob over Alice's unreleased entry
inserts the sub-heading `[ Alice ]` — naming the previous author, not the
current one — so no sub-heading names Bob anywhere in the rewritten
items. -/
theorem claim_C4_counterexample :
    ((rewrite_changelog "1.0.0" "rust-foo" bobAuthor [bobAuthor] fooItem
        (fun _ => false) 7 [entryAlice]).head?.map ChangelogEntry.items) =
      some [fooItem, "", "  [ Alice ]", "  * Initial release."] ∧
    "  [ Bob ]" ∉ [fooItem, "", "  [ Alice ]", "  * Initial release."] := by
  decide

/-- C4 (amended): when the top entry is unreleased and its author differs
from the current author, every existing line-item is preserved verbatim
as a contiguous suffix, and the new autogenerated item, a blank separator
and a sub-heading naming the existing entry's author are inserted before
them. -/
theorem claim_C4_amended (dv sn author : String) (ups : List String)
    (item : String) (mt : String → Bool) (now : Nat)
    (e : ChangelogEntry) (rest : List ChangelogEntry)
    (hdist : e.distribution = DEFAULT_DIST) (hauth : author ≠ e.maintainer) :
    (∃ pre, ((rewrite_changelog dv sn author ups item mt now
        (e :: rest)).head?.map ChangelogEntry.items) = some (pre ++ e.items)) ∧
    (author ∈ ups →
      rewrite_changelog dv sn author ups item mt now (e :: rest) =
        { source := sn,
          version := dv ++ "-" ++ (ver_bump dv rest.head?).getD "1",
          distribution := DEFAULT_DIST, urgency := "urgency=medium",
          maintainer := author, date := now,
          items := item :: "" ::
            ("  [ " ++ maintainerName e.maintainer ++ " ]") :: e.items } :: rest) := by
  unfold rewrite_changelog
  dsimp only
  rw [if_pos hdist, if_neg hauth]
  constructor
  · by_cases hup : (!ups.contains author &&
        !(item :: "" :: ("  [ " ++ maintainerName e.maintainer ++ " ]") ::
          e.items).contains COMMENT_TEAM_UPLOAD) = true
    · refine ⟨[COMMENT_TEAM_UPLOAD, item, "",
        "  [ " ++ maintainerName e.maintainer ++ " ]"], ?_⟩
      rw [if_pos hup]
      rfl
    · refine ⟨[item, "", "  [ " ++ maintainerName e.maintainer ++ " ]"], ?_⟩
      rw [if_neg hup]
      rfl
  · intro hin
    have hc : ups.contains author = true := List.elem_iff.mpr hin
    have : (!ups.contains author &&
        !(item :: "" :: ("  [ " ++ maintainerName e.maintainer ++ " ]") ::
          e.items).contains COMMENT_TEAM_UPLOAD) = false := by
      rw [hc]
      rfl
    rw [this]
    rfl

/-- C4 (witness for the amended claim): the amended statement at the
concrete Alice/Bob input. -/
theorem claim_C4_witness :
    (∃ pre, ((rewrite_changelog "1.0.0" "rust-foo" bobAuthor [bobAuthor]
        fooItem (fun _ => false) 7 (entryAlice :: [])).head?.map
          ChangelogEntry.items) = some (pre ++ entryAlice.items)) ∧
    (bobAuthor ∈ [bobAuthor] →
      rewrite_changelog "1.0.0" "rust-foo" bobAuthor [bobAuthor] fooItem
          (fun _ => false) 7 (entryAlice :: []) =
        { source := "rust-foo",
          version := "1.0.0" ++ "-" ++ (ver_bump "1.0.0" ([] : List ChangelogEntry).head?).getD "1",
          distribution := DEFAULT_DIST, urgency := "urgency=medium",
          maintainer := bobAuthor, date := 7,
          items := fooItem :: "" ::
            ("  [ " ++ maintainerName entryAlice.maintainer ++ " ]") ::
            entryAlice.items } :: []) :=
  claim_C4_amended "1.0.0" "rust-foo" bobAuthor [bobAuthor] fooItem
    (fun _ => false) 7 entryAlice [] (by decide) (by decide)

/-- C5: when the top entry is already released (or the file is empty) a
fresh entry is prepended whose version is `{upstream}-{revision}`; the
revision bumps the previous top entry's numeric suffix when that entry's
upstream component equals the fresh upstream version, and is `1` when the
upstream differs or there is no previous entry. -/
theorem claim_C5 (dv sn author : String) (ups : List String) (item : String)
    (mt : String → Bool) (now : Nat) :
    (∀ (e : ChangelogEntry) (rest : List ChangelogEntry) (n : Nat),
      e.distribution ≠ DEFAULT_DIST →
      (version_parts e.version).1 = dv →
      parseNat (version_parts e.version).2.data = some n →
      ((rewrite_changelog dv sn author ups item mt now (e :: rest)).head?.map
        ChangelogEntry.version) = some (dv ++ "-" ++ toString (n + 1))) ∧
    (∀ (e : ChangelogEntry) (rest : List ChangelogEntry),
      e.distribution ≠ DEFAULT_DIST →
      (version_parts e.version).1 ≠ dv →
      ((rewrite_changelog dv sn author ups item mt now (e :: rest)).head?.map
        ChangelogEntry.version) = some (dv ++ "-" ++ "1")) ∧
    ((rewrite_changelog dv sn author ups item mt now []).head?.map
      ChangelogEntry.version) = some (dv ++ "-" ++ "1") := by
  refine ⟨?_, ?_, ?_⟩
  · intro e rest n hdist hup hparse
    unfold rewrite_changelog
    dsimp only
    rw [if_neg hdist]
    dsimp only
    unfold ver_bump
    dsimp only [List.head?]
    rw [if_pos hup]
    unfold deb_version_suffix_bump
    rw [hparse]
    by_cases hteam : (!ups.contains author && !([item] : List String).contains COMMENT_TEAM_UPLOAD) = true
    · rw [if_pos hteam]
      rfl
    · rw [if_neg hteam]
      rfl
  · intro e rest hdist hup
    unfold rewrite_changelog
    dsimp only
    rw [if_neg hdist]
    dsimp only
    unfold ver_bump
    dsimp only [List.head?]
    rw [if_neg hup]
    by_cases hteam : (!ups.contains author && !([item] : List String).contains COMMENT_TEAM_UPLOAD) = true
    · rw [if_pos hteam]
      rfl
    · rw [if_neg hteam]
      rfl
  · unfold rewrite_changelog
    dsimp only
    by_cases hteam : (!ups.contains author && !([item] : List String).contains COMMENT_TEAM_UPLOAD) = true
    · rw [if_pos hteam]
      rfl
    · rw [if_neg hteam]
      rfl

/-- C5 witness: bumping from a released `1.0.0-1` to `1.0.0-2`, resetting
to `-1` on an upstream change, and starting at `-1` with no entries. -/
theorem claim_C5_witness :
    (((rewrite_changelog "1.0.0" "rust-foo" bobAuthor [bobAuthor] fooItem
        (fun _ => false) 7
        ({ entryAlice with distribution := "unstable" } :: [])).head?.map
      ChangelogEntry.version) = some ("1.0.0" ++ "-" ++ toString (1 + 1))) ∧
    (((rewrite_changelog "2.0.0" "rust-foo" bobAuthor [bobAuthor] fooItem
        (fun _ => false) 7
        ({ entryAlice with distribution := "unstable" } :: [])).head?.map
      ChangelogEntry.version) = some ("2.0.0" ++ "-" ++ "1")) ∧
    (((rewrite_changelog "1.0.0" "rust-foo" bobAuthor [bobAuthor] fooItem
        (fun _ => false) 7 []).head?.map
      ChangelogEntry.version) = some ("1.0.0" ++ "-" ++ "1")) :=
  ⟨(claim_C5 "1.0.0" "rust-foo" bobAuthor [bobAuthor] fooItem
      (fun _ => false) 7).1 _ [] 1 (by decide) (by decide) (by decide),
   (claim_C5 "2.0.0" "rust-foo" bobAuthor [bobAuthor] fooItem
      (fun _ => false) 7).2.1 _ [] (by decide) (by decide),
   (claim_C5 "1.0.0" "rust-foo" bobAuthor [bobAuthor] fooItem
      (fun _ => false) 7).2.2⟩

/-- C10: when the top entry is unreleased and amended in place, the new
revision suffix is computed from the next entry below it, not from the
unreleased entry itself: it is the bumped suffix of that next entry when
its upstream component matches, and `1` otherwise (also when there is no
next entry). -/
theorem claim_C10 (dv sn author : String) (ups : List String) (item : String)
    (mt : String → Bool) (now : Nat) (e : ChangelogEntry)
    (rest : List ChangelogEntry) (hdist : e.distribution = DEFAULT_DIST) :
    ((rewrite_changelog dv sn author ups item mt now (e :: rest)).head?.map
        ChangelogEntry.version) =
      some (dv ++ "-" ++ (ver_bump dv rest.head?).getD "1") ∧
    (rest = [] →
      ((rewrite_changelog dv sn author ups item mt now (e :: rest)).head?.map
        ChangelogEntry.version) = some (dv ++ "-" ++ "1")) ∧
    (∀ (e2 : ChangelogEntry) (t : List ChangelogEntry) (n : Nat),
      rest = e2 :: t →
      (version_parts e2.version).1 = dv →
      parseNat (version_parts e2.version).2.data = some n →
      ((rewrite_changelog dv sn author ups item mt now (e :: rest)).head?.map
        ChangelogEntry.version) = some (dv ++ "-" ++ toString (n + 1))) ∧
    (∀ (e2 : ChangelogEntry) (t : List ChangelogEntry),
      rest = e2 :: t →
      (version_parts e2.version).1 ≠ dv →
      ((rewrite_changelog dv sn author ups item mt now (e :: rest)).head?.map
        ChangelogEntry.version) = some (dv ++ "-" ++ "1")) := by
  have hmain : ((rewrite_changelog dv sn author ups item mt now
      (e :: rest)).head?.map ChangelogEntry.version) =
      some (dv ++ "-" ++ (ver_bump dv rest.head?).getD "1") := by
    unfold rewrite_changelog
    dsimp only
    rw [if_pos hdist]
    by_cases hauth : author = e.maintainer
    · rw [if_pos hauth]
      cases hidx : e.items.findIdx? mt with
      | none =>
        dsimp only
        by_cases hteam : (!ups.contains author &&
            !(e.items ++ [item]).contains COMMENT_TEAM_UPLOAD) = true
        · rw [if_pos hteam]
          rfl
        · rw [if_neg hteam]
          rfl
      | some pos =>
        dsimp only
        by_cases hteam : (!ups.contains author &&
            !(e.items.set pos item).contains COMMENT_TEAM_UPLOAD) = true
        · rw [if_pos hteam]
          rfl
        · rw [if_neg hteam]
          rfl
    · rw [if_neg hauth]
      by_cases hteam : (!ups.contains author &&
          !(item :: "" :: ("  [ " ++ maintainerName e.maintainer ++ " ]") ::
            e.items).contains COMMENT_TEAM_UPLOAD) = true
      · rw [if_pos hteam]
        rfl
      · rw [if_neg hteam]
        rfl
  refine ⟨hmain, ?_, ?_, ?_⟩
  · intro hrest
    rw [hmain, hrest]
    rfl
  · intro e2 t n hrest hup hparse
    rw [hmain, hrest]
    have : ver_bump dv (e2 :: t).head? = some (deb_version_suffix_bump e2.version) := by
      unfold ver_bump
      dsimp only [List.head?]
      rw [if_pos hup]
    rw [this]
    unfold deb_version_suffix_bump
    rw [hparse]
    rfl
  · intro e2 t hrest hup
    rw [hmain, hrest]
    have : ver_bump dv (e2 :: t).head? = none := by
      unfold ver_bump
      dsimp only [List.head?]
      rw [if_neg hup]
    rw [this]
    rfl

/-- C10 witness: amending Bob's unreleased `1.0.0-5` entry over a
released `1.0.0-2` entry yields revision `3`, over a released `0.9.0-7`
entry yields revision `1`, and with nothing below yields revision `1`. -/
theorem claim_C10_witness :
    (((rewrite_changelog "1.0.0" "rust-foo" bobAuthor [bobAuthor] fooItem
        (fun _ => false) 7
        ({ entryAlice with maintainer := bobAuthor, version := "1.0.0-5" } ::
          [{ entryAlice with distribution := "unstable", version := "1.0.0-2" }])).head?.map
      ChangelogEntry.version) =
      some ("1.0.0" ++ "-" ++
        (ver_bump "1.0.0"
          [{ entryAlice with distribution := "unstable", version := "1.0.0-2" }].head?).getD "1")) ∧
    (((rewrite_changelog "1.0.0" "rust-foo" bobAuthor [bobAuthor] fooItem
        (fun _ => false) 7
        ({ entryAlice with maintainer := bobAuthor, version := "1.0.0-5" } ::
          [{ entryAlice with distribution := "unstable", version := "1.0.0-2" }])).head?.map
      ChangelogEntry.version) = some ("1.0.0" ++ "-" ++ toString (2 + 1))) ∧
    (((rewrite_changelog "1.0.0" "rust-foo" bobAuthor [bobAuthor] fooItem
        (fun _ => false) 7
        ({ entryAlice with maintainer := bobAuthor, version := "1.0.0-5" } ::
          [{ entryAlice with distribution := "unstable", version := "0.9.0-7" }])).head?.map
      ChangelogEntry.version) = some ("1.0.0" ++ "-" ++ "1")) ∧
    (((rewrite_changelog "1.0.0" "rust-foo" bobAuthor [bobAuthor] fooItem
        (fun _ => false) 7
        [{ entryAlice with maintainer := bobAuthor, version := "1.0.0-5" }]).head?.map
      ChangelogEntry.version) = some ("1.0.0" ++ "-" ++ "1")) :=
  ⟨(claim_C10 "1.0.0" "rust-foo" bobAuthor [bobAuthor] fooItem
      (fun _ => false) 7 _ _ (by decide)).1,
   (claim_C10 "1.0.0" "rust-foo" bobAuthor [bobAuthor] fooItem
      (fun _ => false) 7 _ _ (by decide)).2.2.1 _ [] 2 rfl (by decide) (by decide),
   (claim_C10 "1.0.0" "rust-foo" bobAuthor [bobAuthor] fooItem
      (fun _ => false) 7 _ _ (by decide)).2.2.2 _ [] rfl (by decide),
   (claim_C10 "1.0.0" "rust-foo" bobAuthor [bobAuthor] fooItem
      (fun _ => false) 7 _ [] (by decide)).2.1 rfl⟩

/-! ### Broken-flag propagation (C7) -/

/-- A conflict among mapped child evaluations comes from one of the
children. -/
theorem firstError_some (F : String → Except (String × List Bool) (Option Bool)) :
    ∀ (l : List String) (e : String × List Bool),
      firstError (l.map F) = some e → ∃ p ∈ l, F p = .error e := by
  intro l
  induction l with
  | nil =>
    intro e h
    simp only [List.map_nil, firstError, List.findSome?_nil] at h
    exact Option.noConfusion h
  | cons p ps ih =>
    intro e h
    simp only [List.map_cons, firstError, List.findSome?_cons] at h
    cases hp : F p with
    | error e2 =>
      rw [hp] at h
      dsimp only at h
      rw [Option.some.injEq] at h
      refine ⟨p, List.mem_cons_self _ _, ?_⟩
      rw [hp, h]
    | ok v =>
      rw [hp] at h
      dsimp only at h
      obtain ⟨q, hq, hqe⟩ := ih e h
      exact ⟨q, List.mem_cons_of_mem _ hq, hqe⟩

/-- With no conflict among the mapped child evaluations, the collected
values are exactly the children's successful values: every collected
value comes from some child and every child contributes a value. -/
theorem firstError_none (F : String → Except (String × List Bool) (Option Bool)) :
    ∀ (l : List String),
      firstError (l.map F) = none →
      (∀ y ∈ okValues (l.map F), ∃ p ∈ l, F p = .ok y) ∧
      (∀ p ∈ l, ∃ y ∈ okValues (l.map F), F p = .ok y) := by
  intro l
  induction l with
  | nil =>
    intro _
    constructor
    · intro y hy
      exact absurd hy (List.not_mem_nil y)
    · intro p hp
      exact absurd hp (List.not_mem_nil p)
  | cons p ps ih =>
    intro h
    simp only [List.map_cons, firstError, List.findSome?_cons] at h
    cases hp : F p with
    | error e2 =>
      rw [hp] at h
      dsimp only at h
      exact Option.noConfusion h
    | ok v =>
      rw [hp] at h
      dsimp only at h
      obtain ⟨ih1, ih2⟩ := ih h
      have hcons : okValues ((p :: ps).map F) = v :: okValues (ps.map F) := by
        simp only [List.map_cons, okValues]
        rw [List.filterMap_cons_some]
        rw [hp]
      rw [hcons]
      constructor
      · intro y hy
        rcases List.mem_cons.mp hy with rfl | hy
        · exact ⟨p, List.mem_cons_self _ _, hp⟩
        · obtain ⟨q, hq, hqe⟩ := ih1 y hy
          exact ⟨q, List.mem_cons_of_mem _ hq, hqe⟩
      · intro q hq
        rcases List.mem_cons.mp hq with rfl | hq
        · exact ⟨v, List.mem_cons_self _ _, hp⟩
        · obtain ⟨y, hy, hye⟩ := ih2 q hq
          exact ⟨y, List.mem_cons_of_mem _ hy, hye⟩

/-- A nodup boolean list with at least two elements holds both values. -/
theorem bool_nodup_two (l : List Bool) (hn : l.Nodup) (v0 v1 : Bool)
    (t : List Bool) (he : l = v0 :: v1 :: t) : true ∈ l ∧ false ∈ l := by
  subst he
  have hne : v0 ≠ v1 := by
    intro hc
    subst hc
    exact (List.nodup_cons.mp hn).1 (List.mem_cons_self _ _)
  cases v0 with
  | true =>
    cases v1 with
    | true => exact absurd rfl hne
    | false =>
      exact ⟨List.mem_cons_self _ _,
        List.mem_cons_of_mem _ (List.mem_cons_self _ _)⟩
  | false =>
    cases v1 with
    | true =>
      exact ⟨List.mem_cons_of_mem _ (List.mem_cons_self _ _),
        List.mem_cons_self _ _⟩
    | false => exact absurd rfl hne

/-- Main characterization of the broken-flag fold: a successful result
holds value `b` exactly when some feature reachable within the fuel
carries the explicit override `b`, and a conflict error names a reachable
feature together with both disagreeing values. -/
theorem gtv_main (parents : String → Option (List String))
    (getval : String → Option Bool) :
    ∀ (n : Nat) (f : String),
      (∀ v, get_transitive_val parents getval n f = .ok v →
        ∀ b, v = some b ↔
          ∃ g, reachb parents n f g = true ∧ getval g = some b) ∧
      (∀ k vs, get_transitive_val parents getval n f = .error (k, vs) →
        reachb parents n f k = true ∧ true ∈ vs ∧ false ∈ vs) := by
  intro n
  induction n with
  | zero =>
    intro f
    constructor
    · intro v hv b
      simp only [get_transitive_val, Except.ok.injEq] at hv
      subst hv
      constructor
      · intro h
        exact Option.noConfusion h
      · rintro ⟨g, hg, -⟩
        simp only [reachb] at hg
        exact Bool.noConfusion hg
    · intro k vs hv
      simp only [get_transitive_val] at hv
      exact Except.noConfusion hv
  | succ n ih =>
    intro f
    cases hm : firstError (((parents f).getD []).map
        (fun p => get_transitive_val parents getval n p)) with
    | some e =>
      have hstep : get_transitive_val parents getval (n + 1) f = .error e := by
        simp only [get_transitive_val, hm]
      constructor
      · intro v hv
        rw [hstep] at hv
        exact Except.noConfusion hv
      · intro k vs hv
        rw [hstep, Except.error.injEq] at hv
        subst hv
        obtain ⟨p, hp, hpe⟩ :=
          firstError_some (fun p => get_transitive_val parents getval n p) _ _ hm
        obtain ⟨hreach, ht, hf⟩ := (ih p).2 k vs hpe
        refine ⟨?_, ht, hf⟩
        simp only [reachb, Bool.or_eq_true, List.any_eq_true]
        exact Or.inr ⟨p, hp, hreach⟩
    | none =>
      obtain ⟨hok1, hok2⟩ :=
        firstError_none (fun p => get_transitive_val parents getval n p) _ hm
      have hmem_known : ∀ b : Bool,
          (∃ g, reachb parents (n + 1) f g = true ∧ getval g = some b) →
          b ∈ ((getval f :: okValues (((parents f).getD []).map
            (fun p => get_transitive_val parents getval n p))).filterMap id) := by
        rintro b ⟨g, hreach, hval⟩
        simp only [reachb, Bool.or_eq_true, beq_iff_eq, List.any_eq_true] at hreach
        rcases hreach with rfl | ⟨p, hp, hr⟩
        · refine List.mem_filterMap.mpr ⟨some b, ?_, rfl⟩
          rw [← hval]
          exact List.mem_cons_self _ _
        · obtain ⟨y, hy, hye⟩ := hok2 p hp
          have := ((ih p).1 y hye b).mpr ⟨g, hr, hval⟩
          subst this
          exact List.mem_filterMap.mpr ⟨some b, List.mem_cons_of_mem _ hy, rfl⟩
      have hknown_mem : ∀ b : Bool,
          b ∈ ((getval f :: okValues (((parents f).getD []).map
            (fun p => get_transitive_val parents getval n p))).filterMap id) →
          ∃ g, reachb parents (n + 1) f g = true ∧ getval g = some b := by
        intro b hb
        obtain ⟨ob, hob, hobe⟩ := List.mem_filterMap.mp hb
        rcases List.mem_cons.mp hob with heq | hob
        · refine ⟨f, ?_, ?_⟩
          · simp [reachb]
          · rw [← heq]
            exact hobe
        · obtain ⟨p, hp, hep⟩ := hok1 ob hob
          have hiff := (ih p).1 ob hep b
          obtain ⟨g, hr, hval⟩ := hiff.mp hobe
          refine ⟨g, ?_, hval⟩
          simp only [reachb, Bool.or_eq_true, List.any_eq_true]
          exact Or.inr ⟨p, hp, hr⟩
      cases hd : ((getval f :: okValues (((parents f).getD []).map
          (fun p => get_transitive_val parents getval n p))).filterMap id).dedup with
      | nil =>
        have hstep : get_transitive_val parents getval (n + 1) f = .ok none := by
          simp only [get_transitive_val, hm, hd]
        constructor
        · intro v hv b
          rw [hstep, Except.ok.injEq] at hv
          subst hv
          constructor
          · intro h
            exact Option.noConfusion h
          · intro hex
            have hb := hmem_known b hex
            have hnil := (List.dedup_eq_nil _).mp hd
            rw [hnil] at hb
            exact absurd hb (List.not_mem_nil b)
        · intro k vs hv
          rw [hstep] at hv
          exact Except.noConfusion hv
      | cons v0 t =>
        cases t with
        | nil =>
          have hstep : get_transitive_val parents getval (n + 1) f =
              .ok (some v0) := by
            simp only [get_transitive_val, hm, hd]
          constructor
          · intro v hv b
            rw [hstep, Except.ok.injEq] at hv
            subst hv
            constructor
            · intro h
              have hb : b = v0 := (Option.some.inj h).symm
              subst hb
              refine hknown_mem b ?_
              rw [← List.mem_dedup, hd]
              exact List.mem_cons_self _ _
            · intro hex
              have hb := hmem_known b hex
              rw [← List.mem_dedup, hd] at hb
              rcases List.mem_cons.mp hb with rfl | hb
              · rfl
              · exact absurd hb (List.not_mem_nil b)
          · intro k vs hv
            rw [hstep] at hv
            exact Except.noConfusion hv
        | cons v1 t2 =>
          have hstep : get_transitive_val parents getval (n + 1) f =
              .error (f, v0 :: v1 :: t2) := by
            simp only [get_transitive_val, hm, hd]
          constructor
          · intro v hv
            rw [hstep] at hv
            exact Except.noConfusion hv
          · intro k vs hv
            rw [hstep, Except.error.injEq, Prod.mk.injEq] at hv
            obtain ⟨rfl, rfl⟩ := hv
            have hnd : (v0 :: v1 :: t2).Nodup := by
              rw [← hd]
              exact List.nodup_dedup _
            obtain ⟨ht, hf⟩ := bool_nodup_two _ hnd v0 v1 t2 rfl
            refine ⟨?_, ht, hf⟩
            simp [reachb]

/-- C7: when some recursively required feature carries the explicit
override `true` (marked broken) and another reachable feature (or the
feature itself) carries the conflicting override `false`, resolution
returns a fatal conflict naming a reachable offending feature and both
conflicting values rather than silently picking one; otherwise the
successful effective flag holds a value exactly when a reachable feature
carries that explicit override. -/
theorem claim_C7 (parents : String → Option (List String))
    (getval : String → Option Bool) (n : Nat) (f : String) :
    ((∃ g, reachb parents n f g = true ∧ getval g = some true) →
     (∃ g, reachb parents n f g = true ∧ getval g = some false) →
     ∃ k vs, get_transitive_val parents getval n f = .error (k, vs) ∧
       reachb parents n f k = true ∧ true ∈ vs ∧ false ∈ vs) ∧
    (∀ v, get_transitive_val parents getval n f = .ok v →
      ∀ b, v = some b ↔ ∃ g, reachb parents n f g = true ∧ getval g = some b) := by
  constructor
  · intro htrue hfalse
    cases hv : get_transitive_val parents getval n f with
    | ok v =>
      have hiff := (gtv_main parents getval n f).1 v hv
      have h1 : v = some true := (hiff true).mpr htrue
      have h2 : v = some false := (hiff false).mpr hfalse
      rw [h1] at h2
      exact absurd (Option.some.inj h2) (by simp)
    | error e =>
      obtain ⟨k, vs⟩ := e
      obtain ⟨hr, ht, hf⟩ := (gtv_main parents getval n f).2 k vs hv
      exact ⟨k, vs, rfl, hr, ht, hf⟩
  · exact (gtv_main parents getval n f).1


/-- C7 witness: with `b` marked broken, `c` marked not broken and `a`
requiring both, resolution fails with a conflict naming a reachable
feature and both values; with only `y` marked broken and `x` requiring
it, `x` resolves to broken. -/
theorem claim_C7_witness :
    (∃ k vs,
      get_transitive_val conflictParents conflictVals 2 "a" = .error (k, vs) ∧
      reachb conflictParents 2 "a" k = true ∧ true ∈ vs ∧ false ∈ vs) ∧
    ((some true : Option Bool) = some true ↔
      ∃ g, reachb okParents 2 "x" g = true ∧ okVals g = some true) :=
  ⟨(claim_C7 conflictParents conflictVals 2 "a").1
      ⟨"b", by decide, rfl⟩ ⟨"c", by decide, rfl⟩,
    (claim_C7 okParents okVals 2 "x").2 (some true) rfl true⟩

/-! ### The partition property of `reduce_provides` (C1) -/


/-- A successful lookup returns a stored entry. -/
theorem lookupFD_mem {g : FeatureGraph} {f : String} {d : FeatureDeps}
    (h : lookupFD g f = some d) : (f, d) ∈ g := by
  unfold lookupFD at h
  cases hf : g.find? (fun q => q.1 == f) with
  | none =>
    rw [hf] at h
    exact Option.noConfusion h
  | some q =>
    rw [hf] at h
    have hq := List.find?_some hf
    have hmem : q ∈ g := List.mem_of_find?_eq_some hf
    have h1 : q.1 = f := beq_iff_eq.mp hq
    have h2 : q.2 = d := Option.some.inj h
    rw [← h1, ← h2]
    exact hmem

/-- With nodup keys, every stored entry is found by lookup. -/
theorem mem_lookupFD {g : FeatureGraph} (hn : (graphKeys g).Nodup)
    {f : String} {d : FeatureDeps} (h : (f, d) ∈ g) :
    lookupFD g f = some d := by
  induction g with
  | nil => exact absurd h (List.not_mem_nil _)
  | cons q t ih =>
    have hn' : (graphKeys t).Nodup ∧ q.1 ∉ graphKeys t := by
      have := List.nodup_cons.mp hn
      exact ⟨this.2, this.1⟩
    rcases List.mem_cons.mp h with rfl | hmem
    · unfold lookupFD
      rw [List.find?_cons_of_pos]
      · rfl
      · simp
    · have hne : q.1 ≠ f := by
        intro he
        apply hn'.2
        rw [he]
        exact List.mem_map.mpr ⟨(f, d), hmem, rfl⟩
      unfold lookupFD
      rw [List.find?_cons_of_neg]
      · exact ih hn'.1 hmem
      · simp [hne]

/-- Lookup fails exactly off the key set. -/
theorem lookupFD_none_iff {g : FeatureGraph} {f : String} :
    lookupFD g f = none ↔ f ∉ graphKeys g := by
  constructor
  · intro h hmem
    obtain ⟨q, hq, hfst⟩ := List.mem_map.mp hmem
    unfold lookupFD at h
    cases hf : g.find? (fun p => p.1 == f) with
    | some p =>
      rw [hf] at h
      exact Option.noConfusion h
    | none =>
      apply List.find?_eq_none.mp hf q hq
      simp [hfst]
  · intro h
    unfold lookupFD
    have hnone : g.find? (fun p => p.1 == f) = none := by
      rw [List.find?_eq_none]
      intro q hq hbeq
      exact h (List.mem_map.mpr ⟨q, hq, beq_iff_eq.mp hbeq⟩)
    rw [hnone]
    rfl

/-- `find?` on a key over a key-preserving entry map commutes with the
map. -/
theorem find?_key_map (h : (String × FeatureDeps) → (String × FeatureDeps))
    (hk : ∀ q, (h q).1 = q.1) (l : FeatureGraph) (f : String) :
    (l.map h).find? (fun q => q.1 == f) =
      (l.find? (fun q => q.1 == f)).map h := by
  induction l with
  | nil => rfl
  | cons q t ih =>
    by_cases hq : q.1 = f
    · have e1 : List.find? (fun p => p.1 == f) (h q :: t.map h) = some (h q) :=
        List.find?_cons_of_pos _ (by simp [hk q, hq])
      have e2 : List.find? (fun p => p.1 == f) (q :: t) = some q :=
        List.find?_cons_of_pos _ (by simp [hq])
      rw [List.map_cons, e1, e2]
      rfl
    · have e1 : List.find? (fun p => p.1 == f) (h q :: t.map h) =
          List.find? (fun p => p.1 == f) (t.map h) :=
        List.find?_cons_of_neg _ (by simp [hk q, hq])
      have e2 : List.find? (fun p => p.1 == f) (q :: t) =
          List.find? (fun p => p.1 == f) t :=
        List.find?_cons_of_neg _ (by simp [hq])
      rw [List.map_cons, e1, e2]
      exact ih

/-- Lookup in the dedup'd graph rewrites the looked-up value. -/
theorem lookupFD_dedup (g : FeatureGraph) (f : String) :
    lookupFD (dedupSignatures g) f = (lookupFD g f).map (dedupValue g f) := by
  unfold lookupFD dedupSignatures
  rw [find?_key_map (fun q => (q.1, dedupValue g q.1 q.2)) (fun q => rfl)]
  cases hf : g.find? (fun q => q.1 == f) with
  | none => rfl
  | some q =>
    have hq := List.find?_some hf
    have h1 : q.1 = f := beq_iff_eq.mp hq
    dsimp only [Option.map]
    rw [h1]

/-- The dedup stage keeps the key list unchanged. -/
theorem graphKeys_dedup (g : FeatureGraph) :
    graphKeys (dedupSignatures g) = graphKeys g := by
  unfold graphKeys dedupSignatures
  rw [List.map_map]
  apply List.map_congr_left
  intro q _
  rfl

/-- A found first-of-class is a stored entry of that class. -/
theorem firstWithValue_mem {g : FeatureGraph} {d : FeatureDeps} {f0 : String}
    (h : firstWithValue g d = some f0) : (f0, d) ∈ g := by
  unfold firstWithValue at h
  cases hf : g.find? (fun q => q.2 == d) with
  | none =>
    rw [hf] at h
    exact Option.noConfusion h
  | some q =>
    rw [hf] at h
    have hq := List.find?_some hf
    have hmem : q ∈ g := List.mem_of_find?_eq_some hf
    have h2 : q.2 = d := beq_iff_eq.mp hq
    have h1 : q.1 = f0 := Option.some.inj h
    rw [← h1, ← h2]
    exact hmem

/-- A stored value always has a first-of-class key. -/
theorem firstWithValue_isSome {g : FeatureGraph} {f : String} {d : FeatureDeps}
    (h : (f, d) ∈ g) : ∃ f0, firstWithValue g d = some f0 := by
  unfold firstWithValue
  cases hf : g.find? (fun q => q.2 == d) with
  | none =>
    exfalso
    apply List.find?_eq_none.mp hf (f, d) h
    simp
  | some q => exact ⟨q.1, rfl⟩

/-- The seeded fold of `Nat.min` is below its seed. -/
theorem foldr_min_le_seed (s : Nat) (l : List Nat) : l.foldr Nat.min s ≤ s := by
  induction l with
  | nil => exact Nat.le_refl s
  | cons a t ih => exact Nat.le_trans (Nat.min_le_right a _) ih

/-- The seeded fold of `Nat.min` is below every list member. -/
theorem foldr_min_le_mem (s : Nat) (l : List Nat) :
    ∀ a ∈ l, l.foldr Nat.min s ≤ a := by
  induction l with
  | nil =>
    intro a ha
    exact absurd ha (List.not_mem_nil a)
  | cons b t ih =>
    intro a ha
    rcases List.mem_cons.mp ha with rfl | ha
    · exact Nat.min_le_left a _
    · exact Nat.le_trans (Nat.min_le_right b _) (ih a ha)

/-- The seeded fold of `Nat.min` is attained at the seed or at a
member. -/
theorem foldr_min_attained (s : Nat) (l : List Nat) :
    l.foldr Nat.min s = s ∨ l.foldr Nat.min s ∈ l := by
  induction l with
  | nil => exact Or.inl rfl
  | cons b t ih =>
    rcases Nat.le_total b (t.foldr Nat.min s) with hle | hle
    · right
      rw [List.foldr_cons, Nat.min_eq_min, Nat.min_eq_left hle]
      exact List.mem_cons_self _ _
    · rw [List.foldr_cons, Nat.min_eq_min, Nat.min_eq_right hle]
      rcases ih with h | h
      · exact Or.inl h
      · exact Or.inr (List.mem_cons_of_mem _ h)

/-- With a seed from the list, the fold lands in the list. -/
theorem foldr_min_mem_of_seed_mem (s : Nat) (l : List Nat) (hs : s ∈ l) :
    l.foldr Nat.min s ∈ l := by
  rcases foldr_min_attained s l with h | h
  · rw [h]
    exact hs
  · exact h

/-- Two seeds both occurring in the list give the same fold. -/
theorem foldr_min_seed_irrel (a b : Nat) (l : List Nat) (ha : a ∈ l)
    (hb : b ∈ l) : l.foldr Nat.min a = l.foldr Nat.min b :=
  Nat.le_antisymm
    (foldr_min_le_mem a l _ (foldr_min_mem_of_seed_mem b l hb))
    (foldr_min_le_mem b l _ (foldr_min_mem_of_seed_mem a l ha))

/-- The rank of a key belongs to the rank list of its signature class. -/
theorem rank_mem_class {g : FeatureGraph} (rank : String → Nat) {f : String}
    {d : FeatureDeps} (h : (f, d) ∈ g) :
    rank f ∈ ((g.filter (fun q => q.2 == d)).map (fun q => rank q.1)) := by
  apply List.mem_map.mpr
  refine ⟨(f, d), ?_, rfl⟩
  apply List.mem_filter.mpr
  exact ⟨h, by simp⟩

/-- The collapsed rank never exceeds the original. -/
theorem rankTwo_le (g : FeatureGraph) (rank : String → Nat) (f : String) :
    rankTwo g rank f ≤ rank f := by
  unfold rankTwo
  cases h : lookupFD g f with
  | none => exact Nat.le_refl _
  | some d => exact foldr_min_le_seed _ _

/-- Keys with equal signatures have equal collapsed rank. -/
theorem rankTwo_eq_of_mem {g : FeatureGraph} (hn : (graphKeys g).Nodup)
    (rank : String → Nat) {f f0 : String} {d : FeatureDeps}
    (h1 : (f, d) ∈ g) (h2 : (f0, d) ∈ g) :
    rankTwo g rank f = rankTwo g rank f0 := by
  unfold rankTwo
  rw [mem_lookupFD hn h1, mem_lookupFD hn h2]
  unfold classMin
  exact foldr_min_seed_irrel _ _ _ (rank_mem_class rank h1) (rank_mem_class rank h2)

/-- The collapsed rank of a key is the original rank of some key of its
class. -/
theorem rankTwo_attained {g : FeatureGraph} (hn : (graphKeys g).Nodup)
    (rank : String → Nat) {f : String} {d : FeatureDeps} (h : (f, d) ∈ g) :
    ∃ h0, (h0, d) ∈ g ∧ rankTwo g rank f = rank h0 := by
  unfold rankTwo
  rw [mem_lookupFD hn h]
  unfold classMin
  rcases foldr_min_attained (rank f)
      ((g.filter (fun q => q.2 == d)).map (fun q => rank q.1)) with he | he
  · exact ⟨f, h, he⟩
  · obtain ⟨q, hq, hrq⟩ := List.mem_map.mp he
    have hmf := List.mem_filter.mp hq
    have hd : q.2 = d := beq_iff_eq.mp hmf.2
    refine ⟨q.1, ?_, hrq.symm⟩
    rw [← hd]
    exact hmf.1

/-- The collapsed rank strictly decreases along original edges. -/
theorem rankTwo_edge {g : FeatureGraph} (hn : (graphKeys g).Nodup)
    {rank : String → Nat} (hr : RankOk g rank) {f k : String}
    {d : FeatureDeps} (h : (f, d) ∈ g) (hk : k ∈ d.1) :
    rankTwo g rank k < rankTwo g rank f := by
  obtain ⟨h0, hmem0, heq⟩ := rankTwo_attained hn rank h
  have hlt : rank k < rank h0 := hr (h0, d) hmem0 k hk
  have hle : rankTwo g rank k ≤ rank k := rankTwo_le g rank k
  rw [heq]
  exact Nat.lt_of_le_of_lt hle hlt

/-- `parOf` unfolds to a lookup of a pure single pass-through entry. -/
theorem parOf_eq_some_iff {g : FeatureGraph} {f k : String} :
    parOf g f = some k ↔ lookupFD g f = some ([k], []) := by
  unfold parOf
  cases h : lookupFD g f with
  | none => simp
  | some d =>
    obtain ⟨l1, l2⟩ := d
    cases l1 with
    | nil => simp
    | cons a t =>
      cases t with
      | nil =>
        cases l2 with
        | nil => simp
        | cons b t2 => simp
      | cons a2 t2 => simp

/-- The dedup'd rank strictly decreases along every dedup'd edge. -/
theorem rankD_edge {g : FeatureGraph} (hn : (graphKeys g).Nodup)
    {rank : String → Nat} (hr : RankOk g rank) {f : String} {dv : FeatureDeps}
    (h : (f, dv) ∈ dedupSignatures g) :
    ∀ k ∈ dv.1, rankD g rank k < rankD g rank f := by
  intro k hk
  obtain ⟨q, hq, heq⟩ := List.mem_map.mp h
  obtain ⟨d0, hd0⟩ : ∃ d0, (f, d0) ∈ g ∧ dv = dedupValue g f d0 := by
    refine ⟨q.2, ?_, ?_⟩
    · have h1 : q.1 = f := congrArg Prod.fst heq
      rw [← h1]
      exact hq
    · have h1 : q.1 = f := congrArg Prod.fst heq
      have h2 : dedupValue g q.1 q.2 = dv := congrArg Prod.snd heq
      rw [← h2, h1]
  obtain ⟨hmem, hdv⟩ := hd0
  have hlf : lookupFD g f = some d0 := mem_lookupFD hn hmem
  obtain ⟨f0, hf0⟩ := firstWithValue_isSome hmem
  have hf0mem : (f0, d0) ∈ g := firstWithValue_mem hf0
  by_cases hfe : f0 = f
  · have hdd : dv = d0 := by
      rw [hdv]
      unfold dedupValue
      rw [hf0]
      show (if f0 = f then d0 else ([f0], [])) = d0
      rw [if_pos hfe]
    have hrw : rewrittenB g f = false := by
      unfold rewrittenB
      rw [hlf]
      show (match firstWithValue g d0 with
            | some f0 => decide (f0 ≠ f)
            | none => false) = false
      rw [hf0]
      show decide (f0 ≠ f) = false
      simp [hfe]
    rw [hdd] at hk
    have h2 := rankTwo_edge hn hr hmem hk
    unfold rankD
    rw [hrw]
    have : (if rewrittenB g k then 1 else 0) ≤ 1 := by
      by_cases hb : rewrittenB g k <;> simp [hb]
    omega
  · have hdd : dv = ([f0], []) := by
      rw [hdv]
      unfold dedupValue
      rw [hf0]
      show (if f0 = f then d0 else ([f0], [])) = ([f0], [])
      rw [if_neg hfe]
    have hkf : k = f0 := by
      rw [hdd] at hk
      exact List.mem_singleton.mp hk
    have hteq : rankTwo g rank f0 = rankTwo g rank f :=
      rankTwo_eq_of_mem hn rank hf0mem hmem
    have hrwf : rewrittenB g f = true := by
      unfold rewrittenB
      rw [hlf]
      show (match firstWithValue g d0 with
            | some f1 => decide (f1 ≠ f)
            | none => false) = true
      rw [hf0]
      show decide (f0 ≠ f) = true
      simp [hfe]
    have hrwk : rewrittenB g f0 = false := by
      unfold rewrittenB
      rw [mem_lookupFD hn hf0mem]
      show (match firstWithValue g d0 with
            | some f1 => decide (f1 ≠ f0)
            | none => false) = false
      rw [hf0]
      show decide (f0 ≠ f0) = false
      simp
    have e1 : (if rewrittenB g f then 1 else 0) = 1 := by
      rw [hrwf]
      simp
    have e2 : (if rewrittenB g f0 then 1 else 0) = 0 := by
      rw [hrwk]
      simp
    unfold rankD
    rw [hkf, e1, e2, hteq]
    omega

/-- The dedup'd rank strictly decreases along the provider chain. -/
theorem parOf_rankD {g : FeatureGraph} (hn : (graphKeys g).Nodup)
    {rank : String → Nat} (hr : RankOk g rank) {x y : String}
    (h : parOf (dedupSignatures g) x = some y) :
    rankD g rank y < rankD g rank x := by
  have hl := parOf_eq_some_iff.mp h
  have hmem := lookupFD_mem hl
  exact rankD_edge hn hr hmem y (List.mem_singleton.mpr rfl)

/-- Splitting an iterated provider chain. -/
theorem parIter_add (g : FeatureGraph) :
    ∀ (a b : Nat) (f : String),
      parIter g (a + b) f = (parIter g a f).bind (parIter g b) := by
  intro a
  induction a with
  | zero =>
    intro b f
    rw [Nat.zero_add]
    rfl
  | succ a ih =>
    intro b f
    have hadd : a + 1 + b = (a + b) + 1 := by omega
    rw [hadd]
    show (parOf g f).bind (parIter g (a + b)) =
      ((parOf g f).bind (parIter g a)).bind (parIter g b)
    cases parOf g f with
    | none => rfl
    | some x =>
      show parIter g (a + b) x = (parIter g a x).bind (parIter g b)
      exact ih b x

/-- One chain step is just the provider map. -/
theorem parIter_one (g : FeatureGraph) (f : String) :
    parIter g 1 f = parOf g f := by
  show (parOf g f).bind (parIter g 0) = parOf g f
  cases parOf g f <;> rfl

/-- The last step of a chain can be peeled off at the far end. -/
theorem parIter_succ_right (g : FeatureGraph) (n : Nat) (f : String) :
    parIter g (n + 1) f = (parIter g n f).bind (parOf g) := by
  rw [parIter_add g n 1 f]
  cases parIter g n f with
  | none => rfl
  | some x => exact parIter_one g x

/-- A chain from one feature meets each root at most once, and only one
root. -/
theorem parIter_root_unique (g : FeatureGraph) {f s s' : String} {L M : Nat}
    (hs : parOf g s = none) (hs' : parOf g s' = none)
    (hL : parIter g L f = some s) (hM : parIter g M f = some s') :
    L = M ∧ s = s' := by
  have key : ∀ (A B : Nat) (t t' : String), A < B → parOf g t = none →
      parIter g A f = some t → parIter g B f = some t' → False := by
    intro A B t t' hlt ht hA hB
    have hsplit : B = A + (B - A) := by omega
    rw [hsplit, parIter_add, hA] at hB
    have hB2 : parIter g (B - A) t = some t' := hB
    have hsplit2 : B - A = (B - A - 1) + 1 := by omega
    rw [hsplit2] at hB2
    have hnone : parIter g ((B - A - 1) + 1) t = none := by
      show (parOf g t).bind (parIter g (B - A - 1)) = none
      rw [ht]
      rfl
    rw [hnone] at hB2
    exact Option.noConfusion hB2
  rcases Nat.lt_trichotomy L M with hlt | heq | hlt
  · exact absurd (key L M s s' hlt hs hL hM) (fun h => h)
  · subst heq
    rw [hL] at hM
    exact ⟨rfl, Option.some.inj hM⟩
  · exact absurd (key M L s' s hlt hs' hM hL) (fun h => h)

/-- The dedup rewriting either keeps the value or produces a pure
pass-through of a first-of-class key. -/
theorem dedupValue_cases (g : FeatureGraph) (f : String) (d : FeatureDeps) :
    dedupValue g f d = d ∨
    ∃ f0, firstWithValue g d = some f0 ∧ dedupValue g f d = ([f0], []) := by
  unfold dedupValue
  cases h : firstWithValue g d with
  | none => exact Or.inl rfl
  | some f0 =>
    by_cases hfe : f0 = f
    · left
      show (if f0 = f then d else ([f0], [])) = d
      rw [if_pos hfe]
    · right
      refine ⟨f0, rfl, ?_⟩
      show (if f0 = f then d else ([f0], [])) = ([f0], [])
      rw [if_neg hfe]

/-- Dedup preserves closedness of the graph. -/
theorem graphClosed_dedup {g : FeatureGraph} (hc : GraphClosed g) :
    GraphClosed (dedupSignatures g) := by
  intro q hq k hk
  rw [graphKeys_dedup]
  obtain ⟨p, hp, heq⟩ := List.mem_map.mp hq
  have h2 : dedupValue g p.1 p.2 = q.2 := congrArg Prod.snd heq
  rcases dedupValue_cases g p.1 p.2 with hcase | ⟨f0, hf0, hcase⟩
  · apply hc p hp
    rw [← h2] at hk
    rw [hcase] at hk
    exact hk
  · rw [← h2, hcase] at hk
    have hkf : k = f0 := List.mem_singleton.mp hk
    subst hkf
    have hmem := firstWithValue_mem hf0
    exact List.mem_map.mpr ⟨(k, p.2), hmem, rfl⟩

/-- A feature is in the `provided` vector exactly when it has a
provider. -/
theorem mem_providedList_iff {G : FeatureGraph} (hn : (graphKeys G).Nodup)
    (f : String) : f ∈ providedList G ↔ ∃ k, parOf G f = some k := by
  unfold providedList
  constructor
  · intro h
    obtain ⟨q, hq, hfst⟩ := List.mem_map.mp h
    have hfilter := List.mem_filter.mp hq
    have hpass := hfilter.2
    unfold isPassthrough at hpass
    rw [Bool.and_eq_true] at hpass
    have hdd : q.2.2 = [] := List.isEmpty_iff.mp hpass.1
    have hlen : q.2.1.length = 1 := beq_iff_eq.mp hpass.2
    obtain ⟨k, hff⟩ := List.length_eq_one.mp hlen
    refine ⟨k, parOf_eq_some_iff.mpr ?_⟩
    have hq2 : q.2 = ([k], []) := by
      have : q.2 = (q.2.1, q.2.2) := rfl
      rw [this, hff, hdd]
    have hmem : (f, ([k], [])) ∈ G := by
      rw [← hq2, ← hfst]
      exact hfilter.1
    exact mem_lookupFD hn hmem
  · rintro ⟨k, hk⟩
    have hmem := lookupFD_mem (parOf_eq_some_iff.mp hk)
    apply List.mem_map.mpr
    refine ⟨(f, ([k], [])), ?_, rfl⟩
    apply List.mem_filter.mpr
    refine ⟨hmem, ?_⟩
    unfold isPassthrough
    simp

/-- A feature is among the direct provides of `s` exactly when its
provider is `s`. -/
theorem mem_directProvides_iff {G : FeatureGraph} (hn : (graphKeys G).Nodup)
    (c s : String) : c ∈ directProvides G s ↔ parOf G c = some s := by
  unfold directProvides
  constructor
  · intro h
    obtain ⟨q, hq, hfst⟩ := List.mem_map.mp h
    have hfilter := List.mem_filter.mp hq
    rw [Bool.and_eq_true] at hfilter
    have hdd : q.2.2 = [] := List.isEmpty_iff.mp hfilter.2.1
    have hff : q.2.1 = [s] := beq_iff_eq.mp hfilter.2.2
    apply parOf_eq_some_iff.mpr
    have hq2 : q.2 = ([s], []) := by
      have : q.2 = (q.2.1, q.2.2) := rfl
      rw [this, hff, hdd]
    have hmem : (c, ([s], [])) ∈ G := by
      rw [← hq2, ← hfst]
      exact hfilter.1
    exact mem_lookupFD hn hmem
  · intro h
    have hmem := lookupFD_mem (parOf_eq_some_iff.mp h)
    apply List.mem_map.mpr
    refine ⟨(c, ([s], [])), ?_, rfl⟩
    apply List.mem_filter.mpr
    refine ⟨hmem, ?_⟩
    simp

/-- The direct provides lists are duplicate-free. -/
theorem directProvides_nodup {G : FeatureGraph} (hn : (graphKeys G).Nodup)
    (s : String) : (directProvides G s).Nodup := by
  unfold directProvides
  apply hn.sublist
  exact (List.filter_sublist G).map Prod.fst

/-- The `provided` vector is duplicate-free. -/
theorem providedList_nodup {G : FeatureGraph} (hn : (graphKeys G).Nodup) :
    (providedList G).Nodup := by
  unfold providedList
  apply hn.sublist
  exact (List.filter_sublist G).map Prod.fst

/-- Filtering with a weaker predicate keeps at least as much. -/
theorem filter_length_mono (P Q : String → Bool)
    (himp : ∀ x, P x = true → Q x = true) :
    ∀ l : List String, (l.filter P).length ≤ (l.filter Q).length := by
  intro l
  induction l with
  | nil => exact Nat.le_refl 0
  | cons a t ih =>
    by_cases hp : P a = true
    · rw [List.filter_cons_of_pos hp, List.filter_cons_of_pos (himp a hp)]
      exact Nat.succ_le_succ ih
    · rw [List.filter_cons_of_neg (by simpa using hp)]
      by_cases hq : Q a = true
      · rw [List.filter_cons_of_pos hq]
        exact Nat.le_trans ih (Nat.le_succ _)
      · rw [List.filter_cons_of_neg (by simpa using hq)]
        exact ih

/-- A nodup list member satisfying the weaker predicate but not the
stronger one makes the weaker filter strictly longer. -/
theorem filter_count_lt (P Q : String → Bool) (k : String)
    (hP : P k = false) (hQ : Q k = true)
    (himp : ∀ x, P x = true → Q x = true) :
    ∀ l : List String, l.Nodup → k ∈ l →
      (l.filter P).length + 1 ≤ (l.filter Q).length := by
  intro l
  induction l with
  | nil =>
    intro _ hk
    exact absurd hk (List.not_mem_nil k)
  | cons a t ih =>
    intro hl hk
    have hnd := List.nodup_cons.mp hl
    rcases List.mem_cons.mp hk with rfl | hkt
    · rw [List.filter_cons_of_neg (by simp [hP]), List.filter_cons_of_pos hQ]
      exact Nat.succ_le_succ (filter_length_mono P Q himp t)
    · by_cases hp : P a = true
      · rw [List.filter_cons_of_pos hp, List.filter_cons_of_pos (himp a hp)]
        have := ih hnd.2 hkt
        simp only [List.length_cons]
        omega
      · rw [List.filter_cons_of_neg (by simpa using hp)]
        by_cases hq : Q a = true
        · rw [List.filter_cons_of_pos hq]
          have := ih hnd.2 hkt
          simp only [List.length_cons]
          omega
        · rw [List.filter_cons_of_neg (by simpa using hq)]
          exact ih hnd.2 hkt

/-- Every provided feature reaches, along its provider chain, a feature
with no provider, in a number of steps bounded through the ranks of the
provided features passed on the way. -/
theorem reach_root {g : FeatureGraph} (hn : (graphKeys g).Nodup)
    {rank : String → Nat} (hr : RankOk g rank) :
    ∀ (N : Nat) (f : String), rankD g rank f < N →
      ∀ k, parOf (dedupSignatures g) f = some k →
      ∃ L s, 1 ≤ L ∧ parIter (dedupSignatures g) L f = some s ∧
        parOf (dedupSignatures g) s = none ∧
        L ≤ 1 + ((providedList (dedupSignatures g)).filter
          (fun x => decide (rankD g rank x < rankD g rank f))).length := by
  have hn' : (graphKeys (dedupSignatures g)).Nodup := by
    rw [graphKeys_dedup]
    exact hn
  intro N
  induction N with
  | zero =>
    intro f h
    exact absurd h (Nat.not_lt_zero _)
  | succ N ih =>
    intro f hf k hk
    cases hpk : parOf (dedupSignatures g) k with
    | none =>
      refine ⟨1, k, Nat.le_refl 1, ?_, hpk, ?_⟩
      · rw [parIter_one]
        exact hk
      · omega
    | some k2 =>
      have hlt : rankD g rank k < rankD g rank f := parOf_rankD hn hr hk
      have hkN : rankD g rank k < N := by omega
      obtain ⟨L, s, hL1, hiter, hroot, hbound⟩ := ih k hkN k2 hpk
      refine ⟨L + 1, s, by omega, ?_, hroot, ?_⟩
      · show (parOf (dedupSignatures g) f).bind
          (parIter (dedupSignatures g) L) = some s
        rw [hk]
        exact hiter
      · have hkprov : k ∈ providedList (dedupSignatures g) :=
          (mem_providedList_iff hn' k).mpr ⟨k2, hpk⟩
        have hcnt := filter_count_lt
          (fun x => decide (rankD g rank x < rankD g rank k))
          (fun x => decide (rankD g rank x < rankD g rank f)) k
          (by simp) (by simp [hlt])
          (fun x hx => by
            simp only [decide_eq_true_eq] at hx ⊢
            omega)
          (providedList (dedupSignatures g)) (providedList_nodup hn') hkprov
        omega

/-- Occurrences in a flat map, summed per element. -/
theorem count_flatMap_eq_sum (b : String) (F : String → List String) :
    ∀ l : List String,
      ((l.flatMap F).count b) = (l.map (fun c => (F c).count b)).sum := by
  intro l
  induction l with
  | nil => rfl
  | cons c t ih =>
    rw [List.flatMap_cons, List.count_append, List.map_cons, List.sum_cons, ih]

/-- Lengths of filters by two mutually exclusive predicates add up. -/
theorem filter_or_length (p q : Nat → Bool)
    (hdisj : ∀ x, ¬(p x = true ∧ q x = true)) :
    ∀ LL : List Nat,
      (LL.filter (fun x => p x || q x)).length =
      (LL.filter p).length + (LL.filter q).length := by
  intro LL
  induction LL with
  | nil => rfl
  | cons a t ih =>
    by_cases hp : p a = true
    · have hq : q a = false := by
        cases hqa : q a with
        | false => rfl
        | true => exact absurd ⟨hp, hqa⟩ (hdisj a)
      have e0 : List.filter (fun x => p x || q x) (a :: t) =
          a :: List.filter (fun x => p x || q x) t :=
        List.filter_cons_of_pos (by simp [hp])
      have e1 : List.filter p (a :: t) = a :: List.filter p t :=
        List.filter_cons_of_pos hp
      have e2 : List.filter q (a :: t) = List.filter q t :=
        List.filter_cons_of_neg (by simp [hq])
      rw [e0, e1, e2]
      simp only [List.length_cons]
      omega
    · have hp' : p a = false := Bool.eq_false_iff.mpr hp
      by_cases hq : q a = true
      · have e0 : List.filter (fun x => p x || q x) (a :: t) =
            a :: List.filter (fun x => p x || q x) t :=
          List.filter_cons_of_pos (by simp [hq])
        have e1 : List.filter p (a :: t) = List.filter p t :=
          List.filter_cons_of_neg (by simp [hp'])
        have e2 : List.filter q (a :: t) = a :: List.filter q t :=
          List.filter_cons_of_pos hq
        rw [e0, e1, e2]
        simp only [List.length_cons]
        omega
      · have hq' : q a = false := Bool.eq_false_iff.mpr hq
        have e0 : List.filter (fun x => p x || q x) (a :: t) =
            List.filter (fun x => p x || q x) t :=
          List.filter_cons_of_neg (by simp [hp', hq'])
        have e1 : List.filter p (a :: t) = List.filter p t :=
          List.filter_cons_of_neg (by simp [hp'])
        have e2 : List.filter q (a :: t) = List.filter q t :=
          List.filter_cons_of_neg (by simp [hq'])
        rw [e0, e1, e2]
        exact ih

/-- Summing, over a duplicate-free list of targets, the number of
positions whose value hits that target, counts the positions whose value
hits any target of the list. -/
theorem sum_filter_swap (h : Nat → Option String) :
    ∀ (l : List String), l.Nodup → ∀ LL : List Nat,
      (l.map (fun c => (LL.filter (fun L => h L == some c)).length)).sum =
      (LL.filter (fun L => (h L).any (fun c => l.contains c))).length := by
  intro l
  induction l with
  | nil =>
    intro _ LL
    have hfalse : ∀ L, ((h L).any (fun c => ([] : List String).contains c)) = false := by
      intro L
      cases h L <;> rfl
    rw [List.map_nil, List.sum_nil]
    rw [List.filter_congr (fun L _ => hfalse L)]
    rw [List.filter_false]
    rfl
  | cons c t ih =>
    intro hl LL
    have hnd := List.nodup_cons.mp hl
    rw [List.map_cons, List.sum_cons, ih hnd.2 LL]
    rw [← filter_or_length (fun L => h L == some c)
        (fun L => (h L).any (fun x => t.contains x))
        (by
          intro L hand
          obtain ⟨h1, h2⟩ := hand
          dsimp only at h1 h2
          cases hL : h L with
          | none =>
            rw [hL] at h1
            exact Option.noConfusion (beq_iff_eq.mp h1)
          | some x =>
            rw [hL] at h1 h2
            have hx : x = c := by
              have := beq_iff_eq.mp h1
              exact Option.some.inj this
            have hmem : x ∈ t := by
              have : t.elem x = true := h2
              exact (List.elem_iff).mp this
            rw [hx] at hmem
            exact hnd.1 hmem)
        LL]
    apply congrArg List.length
    apply List.filter_congr
    intro L _
    cases hL : h L with
    | none => rfl
    | some x =>
      show ((x == c) || t.contains x) = ((c :: t).contains x)
      rfl

/-- Each occurrence of `b` in the recursively expanded provides of `s`
matches exactly one provider-chain length from `b` up to `s`. -/
theorem count_traverse_depth {G : FeatureGraph} (hn : (graphKeys G).Nodup) :
    ∀ (n : Nat) (s b : String),
      ((traverse_depth (directProvides G) n s).count b) =
      ((List.range n).filter
        (fun L => parIter G (L + 1) b == some s)).length := by
  intro n
  induction n with
  | zero =>
    intro s b
    rfl
  | succ n ih =>
    intro s b
    show ((directProvides G s ++
        (directProvides G s).flatMap (traverse_depth (directProvides G) n)).count b) = _
    rw [List.count_append, count_flatMap_eq_sum]
    rw [List.map_congr_left (fun c _ => ih c b)]
    rw [sum_filter_swap (fun L => parIter G (L + 1) b) (directProvides G s)
      (directProvides_nodup hn s) (List.range n)]
    have hpred : ∀ L, ((parIter G (L + 1) b).any
        (fun c => (directProvides G s).contains c)) =
        (parIter G (L + 1 + 1) b == some s) := by
      intro L
      rw [parIter_succ_right G (L + 1) b]
      cases hL : parIter G (L + 1) b with
      | none => rfl
      | some c =>
        show ((directProvides G s).contains c) = (parOf G c == some s)
        have hiff := mem_directProvides_iff hn c s
        cases hc : (directProvides G s).contains c with
        | true =>
          have hmem : c ∈ directProvides G s := List.elem_iff.mp hc
          have := hiff.mp hmem
          rw [this]
          simp
        | false =>
          cases hpo : parOf G c with
          | none => rfl
          | some s2 =>
            by_cases hs2 : s2 = s
            · exfalso
              rw [hs2] at hpo
              have hmem := hiff.mpr hpo
              have hcontr : (directProvides G s).contains c = true :=
                List.elem_iff.mpr hmem
              rw [hc] at hcontr
              exact Bool.noConfusion hcontr
            · show false = (some s2 == some s)
              have : (some s2 == some s) = false := by
                apply beq_eq_false_iff_ne.mpr
                intro hcon
                exact hs2 (Option.some.inj hcon)
              rw [this]
    rw [List.filter_congr (fun L _ => hpred L)]
    have hcount : ((directProvides G s).count b) =
        if parOf G b = some s then 1 else 0 := by
      by_cases hb : parOf G b = some s
      · rw [if_pos hb]
        have hm : b ∈ directProvides G s := (mem_directProvides_iff hn b s).mpr hb
        have h1 : 0 < (directProvides G s).count b := List.count_pos_iff.mpr hm
        have h2 : (directProvides G s).count b ≤ 1 :=
          List.nodup_iff_count_le_one.mp (directProvides_nodup hn s) b
        omega
      · rw [if_neg hb]
        apply List.count_eq_zero.mpr
        intro hm
        exact hb ((mem_directProvides_iff hn b s).mp hm)
    rw [hcount, List.range_succ_eq_map]
    rw [List.filter_cons]
    rw [List.filter_map]
    have hsucc : ((List.range n).filter
        ((fun L => parIter G (L + 1) b == some s) ∘ Nat.succ)) =
        ((List.range n).filter (fun L => parIter G (L + 1 + 1) b == some s)) := by
      apply List.filter_congr
      intro L _
      rfl
    by_cases hb : parOf G b = some s
    · have hbeq : (parIter G (0 + 1) b == some s) = true := by
        rw [Nat.zero_add, parIter_one, hb]
        simp
      rw [if_pos hb, hbeq, if_pos rfl, List.length_cons, List.length_map, hsucc]
      omega
    · have hbeq : (parIter G (0 + 1) b == some s) = false := by
        rw [Nat.zero_add, parIter_one]
        exact beq_eq_false_iff_ne.mpr hb
      rw [if_neg hb, hbeq, if_neg (by simp), List.length_map, hsucc]
      omega

/-- Flat-mapping after a map composes. -/
theorem flatMap_map_eq {α β γ : Type} (h : α → β) (F : β → List γ) :
    ∀ l : List α, (l.map h).flatMap F = l.flatMap (fun x => F (h x)) := by
  intro l
  induction l with
  | nil => rfl
  | cons a t ih =>
    rw [List.map_cons, List.flatMap_cons, List.flatMap_cons, ih]

/-- A member occurs exactly once in a duplicate-free list. -/
theorem count_eq_one_of_nodup_mem {l : List String} (hl : l.Nodup) {b : String}
    (hb : b ∈ l) : l.count b = 1 :=
  Nat.le_antisymm (List.nodup_iff_count_le_one.mp hl b)
    (List.count_pos_iff.mpr hb)

/-- A filter whose positives are pairwise equal keeps at most one
element of a duplicate-free list. -/
theorem length_le_one_of_unique (p : Nat → Bool) (LL : List Nat)
    (hLL : LL.Nodup)
    (huniq : ∀ a ∈ LL, ∀ a' ∈ LL, p a = true → p a' = true → a = a') :
    (LL.filter p).length ≤ 1 := by
  cases hf : LL.filter p with
  | nil => exact Nat.zero_le 1
  | cons x t =>
    cases t with
    | nil => exact Nat.le_refl 1
    | cons y t2 =>
      exfalso
      have hxf : x ∈ LL.filter p := by
        rw [hf]
        exact List.mem_cons_self _ _
      have hyf : y ∈ LL.filter p := by
        rw [hf]
        exact List.mem_cons_of_mem _ (List.mem_cons_self _ _)
      have hx := List.mem_filter.mp hxf
      have hy := List.mem_filter.mp hyf
      have hxy : x = y := huniq x hx.1 y hy.1 hx.2 hy.2
      have hnd : (LL.filter p).Nodup := hLL.filter p
      rw [hf] at hnd
      have := (List.nodup_cons.mp hnd).1
      rw [hxy] at this
      exact this (List.mem_cons_self _ _)

/-- Total number of occurrences of a feature in the final provides
lists, as a count over chain lengths landing in the surviving keys. -/
theorem count_provides_total {g : FeatureGraph}
    (hn' : (graphKeys (dedupSignatures g)).Nodup) (r' : FeatureGraph)
    (hrn : (graphKeys r').Nodup) (b : String) :
    (((r'.map (fun q => (q.1, List.insertionSort (fun a c => strLe a c = true)
        (traverse_depth (directProvides (dedupSignatures g))
          (dedupSignatures g).length q.1)))).flatMap (fun q => q.2)).count b) =
    ((List.range (dedupSignatures g).length).filter
      (fun L => (parIter (dedupSignatures g) (L + 1) b).any
        (fun c => (graphKeys r').contains c))).length := by
  rw [flatMap_map_eq]
  have h1 : r'.flatMap (fun q =>
      List.insertionSort (fun a c => strLe a c = true)
        (traverse_depth (directProvides (dedupSignatures g))
          (dedupSignatures g).length q.1)) =
      (graphKeys r').flatMap (fun s =>
        List.insertionSort (fun a c => strLe a c = true)
          (traverse_depth (directProvides (dedupSignatures g))
            (dedupSignatures g).length s)) := by
    unfold graphKeys
    rw [flatMap_map_eq]
  rw [h1, count_flatMap_eq_sum]
  have h2 : (graphKeys r').map (fun s =>
      ((List.insertionSort (fun a c => strLe a c = true)
        (traverse_depth (directProvides (dedupSignatures g))
          (dedupSignatures g).length s)).count b)) =
      (graphKeys r').map (fun s =>
        ((List.range (dedupSignatures g).length).filter
          (fun L => parIter (dedupSignatures g) (L + 1) b == some s)).length) := by
    apply List.map_congr_left
    intro s _
    rw [(List.perm_insertionSort _ _).count_eq]
    exact count_traverse_depth hn' (dedupSignatures g).length s b
  rw [h2]
  exact sum_filter_swap (fun L => parIter (dedupSignatures g) (L + 1) b)
    (graphKeys r') hrn (List.range (dedupSignatures g).length)

/-- C1: on a well-formed acyclic feature graph (duplicate-free key set,
required features naming keys of the graph, topologically rankable
requirement edges), the surviving keys of `reduce_provides` together
with all its provides lists form a permutation of the original key set —
every original feature appears in exactly one place — and hence are
pairwise disjoint (the combined list is duplicate-free). -/
theorem claim_C1 (g : FeatureGraph) (pv : List (String × List String))
    (r : FeatureGraph) (hn : (graphKeys g).Nodup) (hc : GraphClosed g)
    (ha : Acyclic g) (hr : reduce_provides g = some (pv, r)) :
    ((graphKeys r ++ pv.flatMap (fun q => q.2)).Perm (graphKeys g)) ∧
    (graphKeys r ++ pv.flatMap (fun q => q.2)).Nodup := by
  obtain ⟨rank, hrank⟩ := ha
  have hn' : (graphKeys (dedupSignatures g)).Nodup := by
    rw [graphKeys_dedup]
    exact hn
  have hc' : GraphClosed (dedupSignatures g) := graphClosed_dedup hc
  unfold reduce_provides at hr
  by_cases hok : assertsOk (dedupSignatures g)
  case neg =>
    rw [if_neg hok] at hr
    exact Option.noConfusion hr
  rw [if_pos hok] at hr
  have hinj := Option.some.inj hr
  have hpv : ((dedupSignatures g).filter
      (fun q => !(providedList (dedupSignatures g)).contains q.1)).map
        (fun q => (q.1, List.insertionSort (fun a c => strLe a c = true)
          (traverse_depth (directProvides (dedupSignatures g))
            (dedupSignatures g).length q.1))) = pv := congrArg Prod.fst hinj
  have hred : (dedupSignatures g).filter
      (fun q => !(providedList (dedupSignatures g)).contains q.1) = r :=
    congrArg Prod.snd hinj
  rw [hred] at hpv
  have hkeysR_iff : ∀ x, x ∈ graphKeys r ↔
      x ∈ graphKeys (dedupSignatures g) ∧
      x ∉ providedList (dedupSignatures g) := by
    intro x
    rw [← hred]
    unfold graphKeys
    constructor
    · intro h
      obtain ⟨q, hq, hfst⟩ := List.mem_map.mp h
      have hf := List.mem_filter.mp hq
      constructor
      · exact List.mem_map.mpr ⟨q, hf.1, hfst⟩
      · intro hmem
        have hcq : (providedList (dedupSignatures g)).contains q.1 = true :=
          List.elem_iff.mpr (by
            rw [hfst]
            exact hmem)
        have hcontr := hf.2
        rw [hcq] at hcontr
        exact Bool.noConfusion hcontr
    · rintro ⟨hmemG, hnprov⟩
      obtain ⟨q, hq, hfst⟩ := List.mem_map.mp hmemG
      refine List.mem_map.mpr ⟨q, ?_, hfst⟩
      apply List.mem_filter.mpr
      refine ⟨hq, ?_⟩
      have hfalse : (providedList (dedupSignatures g)).contains q.1 = false := by
        cases hcc : (providedList (dedupSignatures g)).contains q.1 with
        | false => rfl
        | true =>
          exfalso
          apply hnprov
          have := List.elem_iff.mp hcc
          rw [← hfst]
          exact this
      rw [hfalse]
      rfl
  have hkeysR_nodup : (graphKeys r).Nodup := by
    rw [← hred]
    unfold graphKeys
    apply hn'.sublist
    exact (List.filter_sublist _).map Prod.fst
  have hcounts : ∀ b, ((graphKeys r ++ pv.flatMap (fun q => q.2)).count b) =
      ((graphKeys g).count b) := by
    intro b
    rw [List.count_append]
    rw [← hpv]
    rw [count_provides_total hn' r hkeysR_nodup b]
    by_cases hbr : b ∈ graphKeys r
    · have hbG : b ∈ graphKeys (dedupSignatures g) := ((hkeysR_iff b).mp hbr).1
      have hbnp : b ∉ providedList (dedupSignatures g) := ((hkeysR_iff b).mp hbr).2
      have hpar : parOf (dedupSignatures g) b = none := by
        cases hp : parOf (dedupSignatures g) b with
        | none => rfl
        | some k =>
          exact absurd ((mem_providedList_iff hn' b).mpr ⟨k, hp⟩) hbnp
      have hfeq : ∀ L ∈ List.range (dedupSignatures g).length,
          ((parIter (dedupSignatures g) (L + 1) b).any
            (fun c => (graphKeys r).contains c)) = false := by
        intro L _
        have hnone : parIter (dedupSignatures g) (L + 1) b = none := by
          show (parOf (dedupSignatures g) b).bind _ = none
          rw [hpar]
          rfl
        rw [hnone]
        rfl
      rw [List.filter_congr hfeq, List.filter_false]
      have h1 : (graphKeys r).count b = 1 :=
        count_eq_one_of_nodup_mem hkeysR_nodup hbr
      have h2 : (graphKeys g).count b = 1 := by
        apply count_eq_one_of_nodup_mem hn
        rw [← graphKeys_dedup]
        exact hbG
      rw [h1, h2]
      rfl
    · by_cases hbG : b ∈ graphKeys (dedupSignatures g)
      · have hbprov : b ∈ providedList (dedupSignatures g) := by
          by_contra hnp
          exact hbr ((hkeysR_iff b).mpr ⟨hbG, hnp⟩)
        obtain ⟨k, hk⟩ : ∃ k, parOf (dedupSignatures g) b = some k :=
          (mem_providedList_iff hn' b).mp hbprov
        obtain ⟨L0, s, hL1, hiter, hroot, hbound⟩ :=
          reach_root hn hrank (rankD g rank b + 1) b (Nat.lt_succ_self _) k hk
        have hprovNodup := providedList_nodup hn'
        have hstep := filter_count_lt
          (fun x => decide (rankD g rank x < rankD g rank b)) (fun _ => true) b
          (by simp) rfl (fun x _ => rfl)
          (providedList (dedupSignatures g)) hprovNodup hbprov
        rw [List.filter_true] at hstep
        have hlen2 : (providedList (dedupSignatures g)).length ≤
            (dedupSignatures g).length := by
          unfold providedList
          rw [List.length_map]
          exact List.length_filter_le _ _
        have hL0 : L0 ≤ (dedupSignatures g).length := by omega
        have hiter' : parIter (dedupSignatures g) ((L0 - 1) + 1) b = some s := by
          have he : L0 - 1 + 1 = L0 := by omega
          rw [he]
          exact hiter
        obtain ⟨x, hx1, hx2⟩ : ∃ x,
            parIter (dedupSignatures g) (L0 - 1) b = some x ∧
            parOf (dedupSignatures g) x = some s := by
          have h := hiter'
          rw [parIter_succ_right] at h
          cases hxx : parIter (dedupSignatures g) (L0 - 1) b with
          | none =>
            rw [hxx] at h
            exact Option.noConfusion h
          | some x =>
            rw [hxx] at h
            exact ⟨x, rfl, h⟩
        have hsG : s ∈ graphKeys (dedupSignatures g) := by
          have hmem := lookupFD_mem (parOf_eq_some_iff.mp hx2)
          exact hc' _ hmem s (List.mem_singleton.mpr rfl)
        have hsr : s ∈ graphKeys r := by
          apply (hkeysR_iff s).mpr
          refine ⟨hsG, ?_⟩
          intro hsp
          obtain ⟨k2, hk2⟩ := (mem_providedList_iff hn' s).mp hsp
          rw [hroot] at hk2
          exact Option.noConfusion hk2
        have hinv : ∀ a : Nat, ((parIter (dedupSignatures g) (a + 1) b).any
            (fun c => (graphKeys r).contains c)) = true →
            ∃ s1, parIter (dedupSignatures g) (a + 1) b = some s1 ∧
              parOf (dedupSignatures g) s1 = none := by
          intro a hpa
          cases hpi : parIter (dedupSignatures g) (a + 1) b with
          | none =>
            rw [hpi] at hpa
            exact Bool.noConfusion hpa
          | some s1 =>
            rw [hpi] at hpa
            have hs1r : s1 ∈ graphKeys r := List.elem_iff.mp hpa
            have hs1np := ((hkeysR_iff s1).mp hs1r).2
            refine ⟨s1, rfl, ?_⟩
            cases hp1 : parOf (dedupSignatures g) s1 with
            | none => rfl
            | some k3 =>
              exact absurd ((mem_providedList_iff hn' s1).mpr ⟨k3, hp1⟩) hs1np
        have hle1 := length_le_one_of_unique
          (fun L => (parIter (dedupSignatures g) (L + 1) b).any
            (fun c => (graphKeys r).contains c))
          (List.range (dedupSignatures g).length) (List.nodup_range _)
          (by
            intro a ha a' ha' hpa hpa'
            obtain ⟨s1, hs1, hr1⟩ := hinv a hpa
            obtain ⟨s2, hs2, hr2⟩ := hinv a' hpa'
            have heq := (parIter_root_unique (dedupSignatures g) hr1 hr2 hs1 hs2).1
            omega)
        have hmemf : (L0 - 1) ∈ (List.range (dedupSignatures g).length).filter
            (fun L => (parIter (dedupSignatures g) (L + 1) b).any
              (fun c => (graphKeys r).contains c)) := by
          apply List.mem_filter.mpr
          constructor
          · apply List.mem_range.mpr
            omega
          · rw [hiter']
            show ((graphKeys r).contains s) = true
            exact List.elem_iff.mpr hsr
        have hge1 : 1 ≤ ((List.range (dedupSignatures g).length).filter
            (fun L => (parIter (dedupSignatures g) (L + 1) b).any
              (fun c => (graphKeys r).contains c))).length :=
          List.length_pos.mpr (List.ne_nil_of_mem hmemf)
        have hcr : (graphKeys r).count b = 0 := List.count_eq_zero.mpr hbr
        have hcg : (graphKeys g).count b = 1 := by
          apply count_eq_one_of_nodup_mem hn
          rw [← graphKeys_dedup]
          exact hbG
        rw [hcr, hcg]
        omega
      · have hpar : parOf (dedupSignatures g) b = none := by
          unfold parOf
          rw [lookupFD_none_iff.mpr hbG]
        have hfeq : ∀ L ∈ List.range (dedupSignatures g).length,
            ((parIter (dedupSignatures g) (L + 1) b).any
              (fun c => (graphKeys r).contains c)) = false := by
          intro L _
          have hnone : parIter (dedupSignatures g) (L + 1) b = none := by
            show (parOf (dedupSignatures g) b).bind _ = none
            rw [hpar]
            rfl
          rw [hnone]
          rfl
        rw [List.filter_congr hfeq, List.filter_false]
        have hcr : (graphKeys r).count b = 0 := by
          apply List.count_eq_zero.mpr
          intro hm
          exact hbG ((hkeysR_iff b).mp hm).1
        have hcg : (graphKeys g).count b = 0 := by
          apply List.count_eq_zero.mpr
          intro hm
          apply hbG
          rw [graphKeys_dedup]
          exact hm
        rw [hcr, hcg]
        rfl
  have hperm := List.perm_iff_count.mpr hcounts
  exact ⟨hperm, (hperm.nodup_iff).mpr hn⟩

/-- C1 witness: the partition property at the spec's example graph, with
the explicit topological rank. -/
theorem claim_C1_witness :
    ((graphKeys [("", (([] : List String), ["libc"]))] ++
        [("", ["default", "std"])].flatMap (fun q => q.2)).Perm
      (graphKeys exampleGraph)) ∧
    (graphKeys [("", (([] : List String), ["libc"]))] ++
      [("", ["default", "std"])].flatMap (fun q => q.2)).Nodup :=
  claim_C1 exampleGraph [("", ["default", "std"])]
    [("", (([] : List String), ["libc"]))] (by decide)
    (by
      show ∀ q ∈ exampleGraph, ∀ f ∈ q.2.1, f ∈ graphKeys exampleGraph
      decide)
    ⟨fun f => if f = "default" then 1 else 0, by
      show ∀ q ∈ exampleGraph, ∀ f ∈ q.2.1,
        (if f = "default" then 1 else 0) < (if q.1 = "default" then 1 else 0)
      decide⟩ (by decide)

end Debcargo
